import Mathlib

/-!
# Verification of the voca-monster request/response orchestration layer

A shallow embedding of the generation-client service layer
(`src/unnamed/part_002`, the Gemini service wrapper) and of the orchestration
logic of the main application component
(`src/voca-monster/components/ApiKeyManager.tsx`, which holds both the
`ApiKeyManager` component and the `App` orchestrator), together with proofs
about the spec's claims.

Modelling conventions:
* The external generative service is an opaque dependency.  Each embedded
  operation takes the (already parsed) service response, or an oracle of
  responses, as an explicit parameter; a `Nat` component counts the network
  requests actually issued.
* JavaScript exceptions are modelled by `Except String`, carrying the
  `Error.message` string exactly as built by the source.
* The single-threaded event loop is modelled by traces of atomic turns; a
  turn is the synchronous body of an event handler, timer callback or
  promise continuation, exactly as delimited in the source.
-/

namespace VocaMonster

/-! ## JavaScript string primitives used by the sources -/

/-- `String.prototype.trim`: strip whitespace from both ends (modelled at the
character level so that proofs can evaluate it). -/
def jsTrim (s : String) : String :=
  String.mk (((s.data.dropWhile Char.isWhitespace).reverse.dropWhile Char.isWhitespace).reverse)

/-- Character-list version of `String.prototype.startsWith`: does the second
list begin with the first? -/
def beginsWith : List Char → List Char → Bool
  | [], _ => true
  | _ :: _, [] => false
  | c :: cs, d :: ds => c == d && beginsWith cs ds

/-- `String.prototype.startsWith`. -/
def jsStartsWith (s pat : String) : Bool := beginsWith pat.data s.data

/-! ## Service layer: credential resolution (`ensureAiClient`, part_002) -/

/-- The message of the error thrown by `ensureAiClient` when no API key is
configured (part_002 line 17). -/
def noKeyMsg : String := "No API key configured. Please set up your Gemini API key."

/-- `ensureAiClient` (part_002 lines 13-22): resolves the credential (user-saved
value, else environment fallback, both folded into the `cred` parameter) and
constructs the client; throws when no credential resolves.  Constructing the
client issues no network request. -/
def ensureAiClient (cred : Option String) : Except String Unit :=
  match cred with
  | none => Except.error noKeyMsg
  | some _ => Except.ok ()

/-! ## Service layer: `analyzeTextForVocabulary` (part_002 lines 100-139) -/

/-- Parsed JSON values, to the depth the service layer inspects them. -/
inductive JVal where
  | jnull
  | jbool (b : Bool)
  | jnum (n : Int)
  | jstr (s : String)
  | jarr (xs : List JVal)
  | jobj

/-- The shape check `Array.isArray(result) && result.every(item => typeof item
=== 'string')` applied to the elements of a parsed JSON array
(part_002 line 127), returning the extracted strings. -/
def jStrings : List JVal → Option (List String)
  | [] => some []
  | JVal.jstr s :: rest => (jStrings rest).map (fun l => s :: l)
  | _ => none

/-- `analyzeTextForVocabulary` (part_002 lines 100-139).  `response` is the
outcome of `await generateContent` followed by `JSON.parse`: a transport or
parse failure carries its message, success carries the parsed JSON value.
Returns the result paired with the number of network requests issued.
Note the source resolves the client (line 101) before the empty-text early
return (line 102). -/
def analyzeTextForVocabulary (cred : Option String) (response : Except String JVal)
    (text : String) : Except String (List String) × Nat :=
  match ensureAiClient cred with
  | Except.error e => (Except.error e, 0)
  | Except.ok _ =>
    if jsTrim text = "" then (Except.ok [], 0)
    else
      match response with
      | Except.error e => (Except.error ("Could not analyze text for vocabulary: " ++ e), 1)
      | Except.ok (JVal.jarr xs) =>
        match jStrings xs with
        | some ws => (Except.ok ws, 1)
        | none =>
          (Except.error "Could not analyze text for vocabulary: API returned data in an unexpected format.", 1)
      | Except.ok _ =>
        (Except.error "Could not analyze text for vocabulary: API returned data in an unexpected format.", 1)

/-! ## Service layer: `generateWorksheetData` (part_002 lines 144-229) -/

/-- `wordDetails` items (part_002 lines 79-83). -/
structure WordDetail where
  word : String
  koreanMeaning : String
  englishDefinition : String
deriving DecidableEq, Repr

/-- `test` items (part_002 lines 85-88). -/
structure TestItem where
  question : String
  answer : String
deriving DecidableEq, Repr

/-- The worksheet object as it comes out of `JSON.parse` (part_002 line 215):
every field may be absent, and `!data.title` is also true for the empty
string (JavaScript falsiness), so `title` is validated through `titleFalsy`
below. -/
structure RawWorksheet where
  title : Option String
  summary : Option String
  keywords : Option (List String)
  wordDetails : Option (List WordDetail)
  test : Option (List TestItem)
deriving DecidableEq, Repr

/-- JavaScript falsiness of the `title` field: absent or empty string. -/
def titleFalsy : Option String → Bool
  | none => true
  | some s => s = ""

/-- The check `!data.wordDetails || data.wordDetails.length === 0`
(part_002 line 218). -/
def wordDetailsMissing : Option (List WordDetail) → Bool
  | none => true
  | some l => l.isEmpty

/-- `generateWorksheetData` (part_002 lines 144-229).  `response` models
`await generateContent` plus `JSON.parse` of its text.  The client is
resolved first (line 145), then the input guard (line 146) runs before any
request is issued; shape validation (line 218) and the error wrapping of the
catch block (line 227) follow the source. -/
def generateWorksheetData (cred : Option String) (response : Except String RawWorksheet)
    (text : String) (words : List String) : Except String RawWorksheet × Nat :=
  match ensureAiClient cred with
  | Except.error e => (Except.error e, 0)
  | Except.ok _ =>
    if jsTrim text = "" ∨ words = [] then
      (Except.error "Invalid input for worksheet generation.", 0)
    else
      match response with
      | Except.error e => (Except.error ("Could not generate worksheet: " ++ e), 1)
      | Except.ok data =>
        if titleFalsy data.title ∨ wordDetailsMissing data.wordDetails then
          (Except.error ("Could not generate worksheet: " ++ "API returned incomplete worksheet data."), 1)
        else (Except.ok data, 1)

/-! ## Service layer: `streamDefinition` (part_002 lines 232-257) -/

/-- Observable behaviour of one run of the `streamDefinition` async
generator: the chunks it yielded, in order, and the message of the error it
raised if it terminated abnormally (`none` = normal return). -/
structure StreamResult where
  yielded : List String
  raised : Option String
deriving DecidableEq, Repr

/-- `streamDefinition` (part_002 lines 232-257).  `chunks` are the `chunk.text`
values the service stream delivers before it either ends or fails;
`midFail` carries the failure message when the streaming request fails after
delivering `chunks`.  A credential-resolution failure is caught and turned
into a single yielded error chunk followed by a normal return (lines
233-238); a service failure yields a descriptive error chunk and then
re-raises (lines 251-256).  Falsy (empty) chunk texts are skipped
(line 249). -/
def streamDefinition (cred : Option String) (topic : String)
    (chunks : List String) (midFail : Option String) : StreamResult :=
  match ensureAiClient cred with
  | Except.error e => { yielded := ["Error: " ++ e], raised := none }
  | Except.ok _ =>
    let delivered := chunks.filter (fun c => c ≠ "")
    match midFail with
    | none => { yielded := delivered, raised := none }
    | some m =>
      { yielded := delivered ++ ["Error: Could not generate content for \"" ++ topic ++ "\". " ++ m],
        raised := some m }

/-! ## Service layer: `generateAsciiArt` (part_002 lines 259-292) -/

/-- `maxRetries` (part_002 line 264). -/
def maxRetries : Nat := 1

/-- The retry loop of `generateAsciiArt` (part_002 lines 265-290).
`outcome k` abstracts attempt `k+1`: `some art` when the fetched response
passes validation (well-formed JSON object with a non-empty `art` string),
`none` when it is malformed or empty or the request fails.  Returns the
result together with the number of attempts actually made. -/
def asciiLoop (outcome : Nat → Option String) (attempt : Nat) :
    Except String String × Nat :=
  if h : attempt ≤ maxRetries ∧ 1 ≤ attempt then
    match outcome (attempt - 1) with
    | some art => (Except.ok art, attempt)
    | none =>
      if attempt = maxRetries then
        (Except.error ("Could not generate ASCII art after " ++ toString maxRetries ++ " attempts."),
          attempt)
      else asciiLoop outcome (attempt + 1)
  else (Except.error "All ASCII art generation attempts failed", attempt - 1)
termination_by maxRetries + 1 - attempt
decreasing_by omega

/-- `generateAsciiArt` (part_002 lines 259-292): resolve the client, then run
the attempt loop starting at attempt 1. -/
def generateAsciiArt (cred : Option String) (outcome : Nat → Option String) :
    Except String String × Nat :=
  match ensureAiClient cred with
  | Except.error e => (Except.error e, 0)
  | Except.ok _ => asciiLoop outcome 1

/-! ## `ApiKeyManager.handleSaveKey` (ApiKeyManager.tsx lines 41-66) -/

/-- A user-facing status message (`message` state of `ApiKeyManager`). -/
structure KeyMsg where
  isError : Bool
  msgText : String
deriving DecidableEq, Repr

/-- The `ApiKeyManager` component state relevant to saving: the input field,
the flags, the status message, and the persisted browser-storage slot
`gemini_api_key` (`store`). -/
structure KeyManagerState where
  apiKey : String
  isKeySet : Bool
  isExpanded : Bool
  message : Option KeyMsg
  store : Option String
deriving DecidableEq, Repr

/-- `handleSaveKey` (ApiKeyManager.tsx lines 41-66): trim the input; reject
empty input, then reject keys that do not start with `"AI"` or are shorter
than 20 characters, both without touching the store; otherwise persist the
trimmed key and report success.  (The 3-second message-clearing timer and the
`onApiKeyChange` callback affect no field modelled here.) -/
def handleSaveKey (s : KeyManagerState) : KeyManagerState :=
  let trimmedKey := jsTrim s.apiKey
  if trimmedKey = "" then
    { s with message := some ⟨true, "Please enter a valid API key"⟩ }
  else if ¬ jsStartsWith trimmedKey "AI" ∨ trimmedKey.length < 20 then
    { s with message := some ⟨true, "Invalid Gemini API key format"⟩ }
  else
    { s with store := some trimmedKey, isKeySet := true, isExpanded := false,
             message := some ⟨false, "API key saved successfully!"⟩ }

/-! ## `App.handleSelectionChange` (ApiKeyManager.tsx lines 525-529) -/

/-- `handleSelectionChange` (lines 525-529): a set-membership flip on the
ordered `selectedWords` list — remove every occurrence of `word` when
present, append it otherwise. -/
def handleSelectionChange (word : String) (prev : List String) : List String :=
  if prev.contains word then prev.filter (fun w => w ≠ word) else prev ++ [word]

/-! ## Orchestrator data model (App component, ApiKeyManager.tsx lines 324-346) -/

/-- `View` (line 325). -/
inductive View where
  | analyzer
  | definition
  | worksheet
deriving DecidableEq, Repr

/-- `LoadingState` (line 326). -/
inductive LoadingState where
  | idle
  | analyzing
  | generatingWorksheet
  | loadingDefinition
deriving DecidableEq, Repr

/-- A progress step as built by `createProgressSteps` (lines 358-383). -/
structure Step where
  id : String
  label : String
  completed : Bool
  active : Bool
  icon : String
deriving DecidableEq, Repr

/-- The three workflow-template kinds accepted by `createProgressSteps`. -/
inductive ProgressKind where
  | analyze
  | worksheet
  | definition
deriving DecidableEq, Repr

/-- `createProgressSteps` (lines 358-383), verbatim step lists. -/
def createProgressSteps : ProgressKind → List Step
  | ProgressKind.analyze =>
    [⟨"preprocessing", "Preprocessing text content", false, true, "📝"⟩,
     ⟨"analysis", "AI analyzing vocabulary complexity", false, false, "🧠"⟩,
     ⟨"ranking", "Ranking words by difficulty", false, false, "📊"⟩,
     ⟨"finalizing", "Preparing results", false, false, "✨"⟩]
  | ProgressKind.worksheet =>
    [⟨"setup", "Setting up worksheet structure", false, true, "📋"⟩,
     ⟨"definitions", "Generating definitions and translations", false, false, "📚"⟩,
     ⟨"questions", "Creating test questions", false, false, "❓"⟩,
     ⟨"formatting", "Formatting final worksheet", false, false, "✏️"⟩]
  | ProgressKind.definition =>
    [⟨"research", "Researching term definition", false, true, "🔍"⟩,
     ⟨"ascii", "Generating ASCII art visualization", false, false, "🎨"⟩,
     ⟨"content", "Streaming definition content", false, false, "📖"⟩]

/-- `updateProgressStep` (lines 385-403): copy the steps, mark the addressed
step completed and inactive, and, when marking completed, activate the next
step if any.  (The cosmetic `currentProgressStep` string it also updates is
not modelled: no claim mentions it.) -/
def updateProgressStep (stepId : String) (completed : Bool) (prev : List Step) : List Step :=
  match prev.findIdx? (fun s => s.id == stepId) with
  | none => prev
  | some i =>
    prev.mapIdx (fun j s =>
      if j = i then { s with completed := completed, active := false }
      else if completed = true ∧ j = i + 1 then { s with active := true }
      else s)

/-- The orchestrator state owned by `App` (lines 328-346), restricted to the
fields the claims are about. -/
structure AppState where
  view : View
  loadingState : LoadingState
  mainText : String
  analyzedWords : List String
  selectedWords : List String
  error : Option String
  showProgress : Bool
  progressSteps : List Step
  worksheetData : Option RawWorksheet
deriving DecidableEq, Repr

/-! ## C5: orchestration of `handleGenerateWorksheet` (lines 531-564) -/

/-- `handleGenerateWorksheet` (lines 531-564): the net state change once the
worksheet request settles.  The synchronous prefix sets the loading state,
clears the error and installs the worksheet progress template; on failure
the catch block stores the error message and hides the progress indicator
and the finally block restores idle; on success the final step update runs
and the deferred 800 ms block applies the data, switches the view and hides
the progress indicator.  The interleaved cosmetic timer callbacks touch only
`progressSteps` and are modelled separately by the turn machine below. -/
def handleGenerateWorksheet (cred : Option String) (response : Except String RawWorksheet)
    (s : AppState) : AppState :=
  if s.selectedWords = [] then s
  else
    let started := { s with
      loadingState := LoadingState.generatingWorksheet
      error := none
      progressSteps := createProgressSteps ProgressKind.worksheet
      showProgress := true }
    match (generateWorksheetData cred response s.mainText s.selectedWords).1 with
    | Except.error m =>
      { started with
        error := some m
        showProgress := false
        loadingState := LoadingState.idle }
    | Except.ok data =>
      let fin := { started with
        progressSteps := updateProgressStep "formatting" true started.progressSteps }
      { fin with
        worksheetData := some data
        view := View.worksheet
        showProgress := false
        loadingState := LoadingState.idle }

/-! ## Event-loop turn machine for the progress workflows (C4)

`handleAnalyze` (lines 444-481) and `handleGenerateWorksheet` (lines 531-564)
drive the cosmetic progress template: the synchronous prefix of the handler
installs a fresh template and enters the loading state; `setTimeout`
callbacks advance the first three steps after fixed delays (lines 464-466
and 545-547; the timers are never cleared); the continuation after the
awaited request completes the final step and, through the `finally` block,
restores the idle state in the same synchronous run; the error continuation
stores the message, hides the indicator and restores idle; and a deferred
block hides the indicator after the final step.  Each of these synchronous
blocks is one atomic turn of the event loop. -/

/-- One atomic event-loop turn touching the progress machinery. -/
inductive Turn where
  | startOp (k : ProgressKind)
  | timerFire (stepId : String)
  | resolveOp (finalStepId : String)
  | rejectOp (msg : String)
  | hideFire
deriving DecidableEq, Repr

/-- The loading state an operation kind runs under. -/
def opLoading : ProgressKind → LoadingState
  | ProgressKind.analyze => LoadingState.analyzing
  | ProgressKind.worksheet => LoadingState.generatingWorksheet
  | ProgressKind.definition => LoadingState.loadingDefinition

/-- State change of one turn.  `startOp` is the synchronous handler prefix
(set loading state, clear error, install template, show the tracker);
`timerFire` is one scheduled `updateProgressStep(id)`; `resolveOp` is the
post-await continuation together with the `finally` block; `rejectOp` is the
catch block together with the `finally` block; `hideFire` is the deferred
result-applying block (whose payload writes — `analyzedWords`,
`worksheetData`, `view` — touch neither the steps nor the loading state and
are left out here; they are modelled in `handleGenerateWorksheet`). -/
def applyTurn (s : AppState) : Turn → AppState
  | Turn.startOp k =>
    { s with
      loadingState := opLoading k
      error := none
      progressSteps := createProgressSteps k
      showProgress := true }
  | Turn.timerFire stepId =>
    { s with progressSteps := updateProgressStep stepId true s.progressSteps }
  | Turn.resolveOp finalStepId =>
    { s with
      progressSteps := updateProgressStep finalStepId true s.progressSteps
      loadingState := LoadingState.idle }
  | Turn.rejectOp m =>
    { s with
      error := some m
      showProgress := false
      loadingState := LoadingState.idle }
  | Turn.hideFire => { s with showProgress := false }

/-- Run a sequence of turns. -/
def runTurns (s : AppState) (ts : List Turn) : AppState := ts.foldl applyTurn s

/-- The step ids advanced by the three cosmetic timers of each kind, in the
order their deadlines expire (500/1500/2500 ms for analyze, 800/2000/4000 ms
for worksheet; the definition flow schedules no progress timers). -/
def timerIds : ProgressKind → List String
  | ProgressKind.analyze => ["preprocessing", "analysis", "ranking"]
  | ProgressKind.worksheet => ["setup", "definitions", "questions"]
  | ProgressKind.definition => []

/-- The step id completed by the post-await continuation. -/
def finalStep : ProgressKind → String
  | ProgressKind.analyze => "finalizing"
  | ProgressKind.worksheet => "formatting"
  | ProgressKind.definition => ""

/-- The id advanced by a timer turn, if the turn is one. -/
def timerTag : Turn → Option String
  | Turn.timerFire stepId => some stepId
  | _ => none

/-- Is this turn a cosmetic timer? -/
def isTimerT : Turn → Bool
  | Turn.timerFire _ => true
  | _ => false

/-- The non-timer turns of a trace, in order. -/
def mains (ts : List Turn) : List Turn := ts.filter (fun t => ¬ isTimerT t)

/-- `l` begins `r`. -/
def IsPre {α : Type} (l r : List α) : Prop := ∃ t, l ++ t = r

/-- The admissible sequences of non-timer turns after an operation start:
nothing yet, the request resolved, the request resolved and the deferred
hide fired, or the request rejected. -/
def MainsOk (k : ProgressKind) (l : List Turn) : Prop :=
  l = [] ∨ l = [Turn.resolveOp (finalStep k)] ∨
  l = [Turn.resolveOp (finalStep k), Turn.hideFire] ∨ ∃ m, l = [Turn.rejectOp m]

/-- Validity of the turns following a single `startOp k` with no stale
timers pending from an earlier operation: the timers fire in deadline order
(so the fired ids form an initial segment of `timerIds k`), and the
non-timer turns are one of the admissible sequences.  The predicate is
closed under prefixes, so it covers every instant during the operation. -/
def ValidRest (k : ProgressKind) (rest : List Turn) : Prop :=
  IsPre (rest.filterMap timerTag) (timerIds k) ∧ MainsOk k (mains rest)

/-- Number of steps with `active = true`. -/
def countActive (steps : List Step) : Nat := (steps.filter (fun s => s.active)).length

/-- Fold a list of timer updates over a step template. -/
def applyIds (ids : List String) (steps : List Step) : List Step :=
  ids.foldl (fun st stepId => updateProgressStep stepId true st) steps

/-- A neutral initial orchestrator state, used by concrete scenarios. -/
def initialAppState : AppState :=
  ⟨View.analyzer, LoadingState.idle, "text", [], [], none, false, [], none⟩

/-! ## Definition-fetch effect and cancellation-by-staleness (C2)

The `useEffect` at ApiKeyManager.tsx lines 406-441 runs `fetchDefinition`
for the current `definitionTopic`.  Its closure captures a local
`isCancelled` flag; the effect cleanup (line 440) sets it, and React runs
the cleanup of the previous effect before the next effect's body.  The
asynchronous continuations of the effect check the flag before every state
write: before accumulating and applying each streamed chunk (lines
424-427), before applying the ascii art or its fallback (lines 418-420),
and before applying the timing measurement and the idle transition in the
`finally` block (lines 431-437).  Two overlapping runs A (old topic) and B
(new topic) are modelled below; each event is one such guarded
continuation. -/

/-- `createFallbackArt` (lines 243-250). -/
def createFallbackArt (topic : String) : String :=
  let displayableTopic := if topic.length > 20 then topic.take 17 ++ "..." else topic
  let paddedTopic := " " ++ displayableTopic ++ " "
  let topBorder := "┌" ++ String.mk (List.replicate paddedTopic.length '─') ++ "┐"
  let middle := "│" ++ paddedTopic ++ "│"
  let bottomBorder := "└" ++ String.mk (List.replicate paddedTopic.length '─') ++ "┘"
  topBorder ++ "\n" ++ middle ++ "\n" ++ bottomBorder

/-- The state touched by two overlapping definition fetches: each run's
cancellation flag and local `accumulatedContent`, and the shared React
state (`definitionContent`, `asciiArt`, `generationTime`, `loadingState`). -/
structure DefState where
  cancelledA : Bool
  cancelledB : Bool
  accA : String
  accB : String
  definitionContent : String
  asciiArt : Option String
  generationTime : Option Nat
  loadingState : LoadingState
deriving DecidableEq, Repr

/-- The guarded continuations of the two runs: a streamed chunk, the ascii
art promise resolving or rejecting (fallback), the `finally` block
(timing + idle), and B's effect start (cleanup of A plus B's synchronous
resets). -/
inductive DefEv where
  | aChunk (c : String)
  | aArtOk (art : String)
  | aArtFail
  | aFinish (t : Nat)
  | bStart
  | bChunk (c : String)
  | bArtOk (art : String)
  | bArtFail
  | bFinish (t : Nat)
deriving DecidableEq, Repr

/-- Effect of one continuation.  Run-A continuations first test
`isCancelled` and do nothing when set (lines 419, 420, 425-427, 432); the
`bStart` event is the cleanup of A's effect (line 440, setting A's flag)
followed by B's synchronous effect prefix (lines 411-415: loading state,
fresh accumulator, cleared content, art and timing). -/
def applyDefEv (tA tB : String) (s : DefState) : DefEv → DefState
  | DefEv.aChunk c =>
    if s.cancelledA then s
    else { s with
      accA := s.accA ++ c
      definitionContent := s.accA ++ c }
  | DefEv.aArtOk art => if s.cancelledA then s else { s with asciiArt := some art }
  | DefEv.aArtFail =>
    if s.cancelledA then s else { s with asciiArt := some (createFallbackArt tA) }
  | DefEv.aFinish t =>
    if s.cancelledA then s
    else { s with
      generationTime := some t
      loadingState := LoadingState.idle }
  | DefEv.bStart =>
    { s with
      cancelledA := true
      accB := ""
      definitionContent := ""
      asciiArt := none
      generationTime := none
      loadingState := LoadingState.loadingDefinition }
  | DefEv.bChunk c =>
    if s.cancelledB then s
    else { s with
      accB := s.accB ++ c
      definitionContent := s.accB ++ c }
  | DefEv.bArtOk art => if s.cancelledB then s else { s with asciiArt := some art }
  | DefEv.bArtFail =>
    if s.cancelledB then s else { s with asciiArt := some (createFallbackArt tB) }
  | DefEv.bFinish t =>
    if s.cancelledB then s
    else { s with
      generationTime := some t
      loadingState := LoadingState.idle }

/-- Run a sequence of continuations on the event loop. -/
def runDefEvs (tA tB : String) (s : DefState) (evs : List DefEv) : DefState :=
  evs.foldl (applyDefEv tA tB) s

/-- Events belonging to run B. -/
def isBEv : DefEv → Bool
  | DefEv.bStart => true
  | DefEv.bChunk _ => true
  | DefEv.bArtOk _ => true
  | DefEv.bArtFail => true
  | DefEv.bFinish _ => true
  | _ => false

/-- Events belonging to run A. -/
def isAEv (e : DefEv) : Bool := ! isBEv e

/-- The chunk payload of a B chunk event. -/
def bChunkStr : DefEv → Option String
  | DefEv.bChunk c => some c
  | _ => none

/-- The state right after run A's effect body started (lines 411-416): A not
cancelled, empty accumulator, cleared shared state, loading. -/
def defStart : DefState :=
  ⟨false, false, "", "", "", none, none, LoadingState.loadingDefinition⟩

/-- Concatenation of streamed chunks, in arrival order. -/
def joinChunks : List String → String
  | [] => ""
  | c :: l => c ++ joinChunks l

/-- The UI-visible projection of the definition view state. -/
def observe (s : DefState) : String × Option String × Option Nat × LoadingState :=
  (s.definitionContent, s.asciiArt, s.generationTime, s.loadingState)

/-! C7 definitions -/

def isWordChar (c : Char) : Bool := c.isAlpha || c.isDigit || c = '_'

def jsLower (c : Char) : Char :=
  if c.isUpper then Char.ofNat (c.toNat + 32) else c

def lstr (s : List Char) : List Char := s.map jsLower

def isWordO : Option Char → Bool
  | none => false
  | some c => isWordChar c

def bnd (l r : Option Char) : Bool := isWordO l != isWordO r

def wordAt (w text : List Char) : Bool :=
  decide (w ≠ []) && decide (w.length ≤ text.length) &&
    decide (lstr (text.take w.length) = lstr w) &&
    bnd ((text.take w.length).getLast?) ((text.drop w.length).head?)

def tryWords : List (List Char) → List Char → Option Nat
  | [], _ => none
  | w :: ws, text => if wordAt w text then some w.length else tryWords ws text

def splitScan (ws : List (List Char)) (prev : Option Char) (text : List Char)
    (acc : List Char) : List (List Char) :=
  match text with
  | [] => [acc.reverse]
  | c :: rest =>
    match hm : (if bnd prev (some c) then tryWords ws (c :: rest) else none) with
    | some n =>
      acc.reverse :: (c :: rest).take n ::
        splitScan ws ((c :: rest).take n).getLast? ((c :: rest).drop n) []
    | none => splitScan ws (some c) rest (c :: acc)
termination_by text.length
decreasing_by
  · have hb : ∀ (l : List (List Char)) (t : List Char) (m : Nat),
        tryWords l t = some m → 1 ≤ m ∧ m ≤ t.length := by
      intro l
      induction l with
      | nil => intro t m h; simp [tryWords] at h
      | cons w l ih =>
        intro t m h
        by_cases hw : wordAt w t = true
        · simp only [tryWords, if_pos hw] at h
          injection h with h
          subst h
          unfold wordAt at hw
          simp only [Bool.and_eq_true, decide_eq_true_eq] at hw
          exact ⟨List.length_pos.mpr hw.1.1.1, hw.1.1.2⟩
        · simp only [tryWords, if_neg hw] at h
          exact ih t m h
    by_cases hc : bnd prev (some c) = true
    · rw [dif_pos hc] at hm
      obtain ⟨h1, h2⟩ := hb ws (c :: rest) n hm
      simp only [List.length_drop, List.length_cons]
      simp only [List.length_cons] at h2
      omega
    · rw [dif_neg hc] at hm
      exact absurd hm (by simp)
  · simp only [List.length_cons]
    omega

def ciMem (ws : List (List Char)) (r : List Char) : Bool :=
  ws.any (fun w => lstr w == lstr r)

def analyzedParts (highlightWords : List (List Char)) (text : List Char) : List (List Char) :=
  if highlightWords.isEmpty then [text]
  else splitScan highlightWords none text []

def partSpans (ws : List (List Char)) : Nat → List (List Char) → List (Nat × Nat × Bool)
  | _, [] => []
  | i, p :: ps => (i, p.length, ciMem ws p) :: partSpans ws (i + p.length) ps

def joinParts : List (List Char) → List Char
  | [] => []
  | p :: ps => p ++ joinParts ps

def charAt (text : List Char) (k : Nat) : Option Char := text[k]?

def prevCharAt (text : List Char) (k : Nat) : Option Char :=
  match k with
  | 0 => none
  | Nat.succ j => charAt text j

def boundaryAt (text : List Char) (k : Nat) : Bool :=
  bnd (prevCharAt text k) (charAt text k)

def BoundaryOcc (text w : List Char) (i : Nat) : Prop :=
  i + w.length ≤ text.length ∧
  lstr ((text.drop i).take w.length) = lstr w ∧
  boundaryAt text i = true ∧ boundaryAt text (i + w.length) = true

def headRun : List Char → List Char
  | [] => []
  | c :: rest => c :: rest.takeWhile (fun d => isWordChar d == isWordChar c)

def tailRun : List Char → List Char
  | [] => []
  | c :: rest => rest.dropWhile (fun d => isWordChar d == isWordChar c)

def refParts (ws : List (List Char)) : List Char → List Char → List (List Char)
  | [], acc => [acc.reverse]
  | c :: rest, acc =>
    if isWordChar c && ciMem ws (headRun (c :: rest)) then
      acc.reverse :: headRun (c :: rest) :: refParts ws (tailRun (c :: rest)) []
    else refParts ws (tailRun (c :: rest)) ((headRun (c :: rest)).reverse ++ acc)
termination_by text => text.length
decreasing_by
  all_goals
    simp only [tailRun, List.length_cons]
    have := (List.dropWhile_sublist (l := rest) (fun d => isWordChar d == isWordChar c)).length_le
    omega

/-- C5: a worksheet-synthesis response missing `title` (or with an empty
word-detail list) makes the operation raise `MalformedResponseError`
(message `API returned incomplete worksheet data.`, wrapped by the service
catch block); the orchestrator catches it, stores it as the single
user-visible error message, restores the operation state to idle and clears
the in-progress visual progress indicator. -/
theorem worksheet_malformed_response (k : String) (raw : RawWorksheet) (s : AppState)
    (hsel : s.selectedWords ≠ []) (htext : jsTrim s.mainText ≠ "")
    (hbad : titleFalsy raw.title ∨ wordDetailsMissing raw.wordDetails) :
    (handleGenerateWorksheet (some k) (Except.ok raw) s).error =
      some "Could not generate worksheet: API returned incomplete worksheet data." ∧
    (handleGenerateWorksheet (some k) (Except.ok raw) s).loadingState = LoadingState.idle ∧
    (handleGenerateWorksheet (some k) (Except.ok raw) s).showProgress = false := by
  have hguard : ¬ (jsTrim s.mainText = "" ∨ s.selectedWords = []) := by
    rintro (h | h)
    · exact htext h
    · exact hsel h
  have hres : (generateWorksheetData (some k) (Except.ok raw) s.mainText s.selectedWords).1 =
      Except.error "Could not generate worksheet: API returned incomplete worksheet data." := by
    simp only [generateWorksheetData, ensureAiClient]
    rw [if_neg hguard, if_pos hbad]
    rfl
  simp [handleGenerateWorksheet, if_neg hsel, hres]

/-- C5, witness: a concrete state and a title-less response. -/
theorem worksheet_malformed_response_witness :
    (handleGenerateWorksheet (some "AIkey-abcdefghijklmnop")
        (Except.ok ⟨none, some "sum", some ["kw"], some [⟨"w", "k", "e"⟩], some []⟩)
        ⟨View.analyzer, LoadingState.idle, "Some text", ["w"], ["w"], none, false, [], none⟩).error =
      some "Could not generate worksheet: API returned incomplete worksheet data." ∧
    (handleGenerateWorksheet (some "AIkey-abcdefghijklmnop")
        (Except.ok ⟨none, some "sum", some ["kw"], some [⟨"w", "k", "e"⟩], some []⟩)
        ⟨View.analyzer, LoadingState.idle, "Some text", ["w"], ["w"], none, false, [], none⟩).loadingState =
      LoadingState.idle ∧
    (handleGenerateWorksheet (some "AIkey-abcdefghijklmnop")
        (Except.ok ⟨none, some "sum", some ["kw"], some [⟨"w", "k", "e"⟩], some []⟩)
        ⟨View.analyzer, LoadingState.idle, "Some text", ["w"], ["w"], none, false, [], none⟩).showProgress =
      false :=
  worksheet_malformed_response "AIkey-abcdefghijklmnop"
    ⟨none, some "sum", some ["kw"], some [⟨"w", "k", "e"⟩], some []⟩
    ⟨View.analyzer, LoadingState.idle, "Some text", ["w"], ["w"], none, false, [], none⟩
    (by decide) (by decide) (Or.inl (by decide))

/-! ## C1: `generateAsciiArt` retry behaviour -/

/-- Unfolding of the attempt loop from its entry point: with `maxRetries = 1`
the loop inspects attempt 1 and finishes. -/
theorem asciiLoop_start (outcome : Nat → Option String) :
    asciiLoop outcome 1 =
      match outcome 0 with
      | some art => (Except.ok art, 1)
      | none => (Except.error "Could not generate ASCII art after 1 attempts.", 1) := by
  unfold asciiLoop
  norm_num [maxRetries]
  rfl

/-- C1, counterexample.  The claim says that when the service returns
malformed JSON on every attempt, `generateAsciiArt` raises `ServiceError`
after exactly 2 attempts (one initial plus one retry).  In the source
`maxRetries = 1` and the loop runs `attempt = 1 .. maxRetries`, so with a
credential configured and every attempt failing validation the operation
makes exactly 1 attempt and raises after it. -/
theorem generateAsciiArt_two_attempts_counterexample :
    generateAsciiArt (some "AI-test-key-0123456789") (fun _ => none) =
      (Except.error "Could not generate ASCII art after 1 attempts.", 1) ∧
    (generateAsciiArt (some "AI-test-key-0123456789") (fun _ => none)).2 ≠ 2 := by
  constructor
  · simp [generateAsciiArt, ensureAiClient, asciiLoop_start]
  · intro h
    simp [generateAsciiArt, ensureAiClient, asciiLoop_start] at h

/-- C1, amended: for every topic (abstracted into the attempt oracle), with a
credential configured, `generateAsciiArt` makes exactly one attempt and no
retry: it raises its `ServiceError` immediately after the first attempt
fails validation, and returns the art when the first attempt succeeds. -/
theorem generateAsciiArt_single_attempt (k : String) (outcome : Nat → Option String) :
    (outcome 0 = none →
      generateAsciiArt (some k) outcome =
        (Except.error "Could not generate ASCII art after 1 attempts.", 1)) ∧
    (∀ a, outcome 0 = some a →
      generateAsciiArt (some k) outcome = (Except.ok a, 1)) := by
  constructor
  · intro h
    simp [generateAsciiArt, ensureAiClient, asciiLoop_start, h]
  · intro a h
    simp [generateAsciiArt, ensureAiClient, asciiLoop_start, h]

/-- C1, witness for the amended theorem at concrete inputs. -/
theorem generateAsciiArt_single_attempt_witness :
    generateAsciiArt (some "AIkey-abcdefghijklmnop") (fun _ => none) =
      (Except.error "Could not generate ASCII art after 1 attempts.", 1) ∧
    generateAsciiArt (some "AIkey-abcdefghijklmnop") (fun _ => some "(art)") =
      (Except.ok "(art)", 1) :=
  ⟨(generateAsciiArt_single_attempt "AIkey-abcdefghijklmnop" (fun _ => none)).1 rfl,
   (generateAsciiArt_single_attempt "AIkey-abcdefghijklmnop" (fun _ => some "(art)")).2 "(art)" rfl⟩

/-! ## C3: `streamDefinition` soft-fail versus mid-stream failure -/

/-- C3: when credential resolution fails before the first chunk,
`streamDefinition` yields exactly one human-readable error chunk and
terminates normally (raises nothing); when the service fails after streaming
has begun, the generator terminates abnormally (re-raises the failure) and
every chunk already yielded is kept intact as a prefix of the yielded
sequence, with the error surfaced alongside them. -/
theorem streamDefinition_error_handling (topic : String) (chunks : List String)
    (midFail : Option String) (k m : String) :
    ((streamDefinition none topic chunks midFail).yielded = ["Error: " ++ noKeyMsg] ∧
     (streamDefinition none topic chunks midFail).raised = none) ∧
    ((streamDefinition (some k) topic chunks (some m)).raised = some m ∧
     (streamDefinition (some k) topic chunks (some m)).yielded =
       chunks.filter (fun c => c ≠ "") ++
         ["Error: Could not generate content for \"" ++ topic ++ "\". " ++ m]) := by
  refine ⟨⟨rfl, rfl⟩, ⟨rfl, rfl⟩⟩

/-! ## C6: `analyzeTextForVocabulary` on empty input -/

/-- C6, counterexample.  The claim states that for every empty or
whitespace-only text the operation returns the empty list without a network
call.  The source resolves the client before the empty-text early return, so
with no credential configured an empty text raises `NoCredentialError`
instead of returning the empty list. -/
theorem analyzeTextForVocabulary_empty_counterexample :
    analyzeTextForVocabulary none (Except.ok JVal.jnull) "" = (Except.error noKeyMsg, 0) ∧
    (analyzeTextForVocabulary none (Except.ok JVal.jnull) "").1 ≠ Except.ok [] := by
  exact ⟨rfl, by simp [analyzeTextForVocabulary, ensureAiClient]⟩

/-- C6, amended: with a credential configured, every empty or
whitespace-only text makes `analyzeTextForVocabulary` return the empty list
with zero network requests issued. -/
theorem analyzeTextForVocabulary_empty_input (k : String) (response : Except String JVal)
    (text : String) (h : jsTrim text = "") :
    analyzeTextForVocabulary (some k) response text = (Except.ok [], 0) := by
  simp [analyzeTextForVocabulary, ensureAiClient, h]

/-- C6, witness: whitespace-only text, with a credential configured. -/
theorem analyzeTextForVocabulary_empty_input_witness :
    analyzeTextForVocabulary (some "AIkey-abcdefghijklmnop") (Except.ok JVal.jnull) "  " =
      (Except.ok [], 0) :=
  analyzeTextForVocabulary_empty_input "AIkey-abcdefghijklmnop" (Except.ok JVal.jnull) "  "
    (by decide)

/-! ## C8: selection toggling -/

/-- C8: toggling a word twice returns the selection set to its original
state (same membership; literally the same list when the word was not
selected), and the selection list keeps insertion order: a newly selected
word is appended at the end, and deselection removes the word while
preserving the relative order of the others. -/
theorem handleSelectionChange_involutive (w : String) (s : List String) :
    (∀ x, x ∈ handleSelectionChange w (handleSelectionChange w s) ↔ x ∈ s) ∧
    (w ∉ s → handleSelectionChange w (handleSelectionChange w s) = s) ∧
    (w ∉ s → handleSelectionChange w s = s ++ [w]) ∧
    (w ∈ s → handleSelectionChange w s = s.filter (fun x => x ≠ w)) := by
  by_cases hw : w ∈ s
  · have h1 : handleSelectionChange w s = s.filter (fun x => x ≠ w) := by
      simp [handleSelectionChange, List.elem_iff, hw]
    have hnot : w ∉ s.filter (fun x => x ≠ w) := by
      simp [List.mem_filter]
    have h2 : handleSelectionChange w (s.filter (fun x => x ≠ w)) =
        s.filter (fun x => x ≠ w) ++ [w] := by
      simp [handleSelectionChange, List.elem_iff, hnot]
    refine ⟨?_, fun hc => absurd hw hc, fun hc => absurd hw hc, fun _ => h1⟩
    intro x
    rw [h1, h2]
    by_cases hx : x = w
    · subst hx; simp [hw]
    · simp [List.mem_filter, hx]
  · have h1 : handleSelectionChange w s = s ++ [w] := by
      simp [handleSelectionChange, List.elem_iff, hw]
    have hin : w ∈ s ++ [w] := by simp
    have h2 : handleSelectionChange w (s ++ [w]) = (s ++ [w]).filter (fun x => x ≠ w) := by
      simp [handleSelectionChange, List.elem_iff]
    have h3 : (s ++ [w]).filter (fun x => x ≠ w) = s := by
      simp only [List.filter_append, List.filter_cons, List.filter_nil]
      have hfs : s.filter (fun x => x ≠ w) = s := by
        rw [List.filter_eq_self]
        intro a ha
        simp only [ne_eq, decide_eq_true_eq]
        intro hcon
        exact hw (hcon ▸ ha)
      rw [hfs]
      simp
    refine ⟨?_, fun _ => ?_, fun _ => h1, fun hc => absurd hc hw⟩
    · intro x; rw [h1, h2, h3]
    · rw [h1, h2, h3]

/-- C8, witness at concrete inputs. -/
theorem handleSelectionChange_involutive_witness :
    handleSelectionChange "cat" (handleSelectionChange "cat" ["ant", "bee"]) = ["ant", "bee"] ∧
    handleSelectionChange "cat" ["ant", "bee"] = ["ant", "bee", "cat"] ∧
    handleSelectionChange "ant" ["ant", "bee"] = ["bee"] := by
  refine ⟨(handleSelectionChange_involutive "cat" ["ant", "bee"]).2.1 (by decide),
    (handleSelectionChange_involutive "cat" ["ant", "bee"]).2.2.1 (by decide), ?_⟩
  have h := (handleSelectionChange_involutive "ant" ["ant", "bee"]).2.2.2 (by decide)
  rw [h]; rfl

/-! ## C9: credential shape validation -/

/-- C9: when the (trimmed) credential input fails the minimal shape check —
empty, not starting with `"AI"`, or shorter than 20 characters —
`handleSaveKey` reports a validation error message to the user and leaves
the persisted credential store unchanged. -/
theorem handleSaveKey_rejects_invalid (s : KeyManagerState)
    (h : jsTrim s.apiKey = "" ∨ ¬ jsStartsWith (jsTrim s.apiKey) "AI" ∨
      (jsTrim s.apiKey).length < 20) :
    (handleSaveKey s).store = s.store ∧
    ∃ m, (handleSaveKey s).message = some m ∧ m.isError = true := by
  unfold handleSaveKey
  by_cases h1 : jsTrim s.apiKey = ""
  · simp [h1]
  · have h2 : jsStartsWith (jsTrim s.apiKey) "AI" = false ∨ (jsTrim s.apiKey).length < 20 := by
      rcases h with h | h | h
      · exact absurd h h1
      · exact Or.inl (by simpa using h)
      · exact Or.inr h
    simp [h1, h2]

/-- C9, witness: saving the credential `"short"` (length < 20, wrong
prefix) is rejected and an empty store stays empty. -/
theorem handleSaveKey_rejects_invalid_witness :
    (handleSaveKey ⟨"short", false, true, none, none⟩).store = none ∧
    ∃ m, (handleSaveKey ⟨"short", false, true, none, none⟩).message = some m ∧
      m.isError = true :=
  handleSaveKey_rejects_invalid ⟨"short", false, true, none, none⟩ (by decide)

/-! ## C10: `generateWorksheetData` input precondition -/

/-- C10: with a credential configured, an empty or whitespace-only source
text or an empty selected-word list makes `generateWorksheetData` throw
`Invalid input for worksheet generation.` before issuing any network
request. -/
theorem generateWorksheetData_input_guard (k : String)
    (response : Except String RawWorksheet) (text : String) (words : List String)
    (h : jsTrim text = "" ∨ words = []) :
    generateWorksheetData (some k) response text words =
      (Except.error "Invalid input for worksheet generation.", 0) := by
  simp only [generateWorksheetData, ensureAiClient, if_pos h]

/-- C10, witness: whitespace-only text with a non-empty word list, and
non-empty text with an empty word list. -/
theorem generateWorksheetData_input_guard_witness :
    generateWorksheetData (some "AIkey-abcdefghijklmnop") (Except.error "t") " " ["w"] =
      (Except.error "Invalid input for worksheet generation.", 0) ∧
    generateWorksheetData (some "AIkey-abcdefghijklmnop") (Except.error "t") "text" [] =
      (Except.error "Invalid input for worksheet generation.", 0) :=
  ⟨generateWorksheetData_input_guard "AIkey-abcdefghijklmnop" (Except.error "t") " " ["w"]
      (Or.inl (by decide)),
   generateWorksheetData_input_guard "AIkey-abcdefghijklmnop" (Except.error "t") "text" []
      (Or.inr rfl)⟩


/-! ## C4: progress-step invariants -/

/-- Folding turns over an appended trace. -/
theorem runTurns_append (s : AppState) (xs ys : List Turn) :
    runTurns s (xs ++ ys) = runTurns (runTurns s xs) ys :=
  List.foldl_append ..

/-- `mains` distributes over append. -/
theorem mains_append (xs ys : List Turn) : mains (xs ++ ys) = mains xs ++ mains ys :=
  List.filter_append ..

/-- Trace validity is closed under dropping the last turn. -/
theorem validRest_drop (k : ProgressKind) (r : List Turn) (e : Turn)
    (h : ValidRest k (r ++ [e])) : ValidRest k r := by
  obtain ⟨⟨t, ht⟩, hm⟩ := h
  constructor
  · refine ⟨List.filterMap timerTag [e] ++ t, ?_⟩
    rw [← List.append_assoc, ← List.filterMap_append]
    exact ht
  · rw [mains_append] at hm
    by_cases he : isTimerT e = true
    · have hme : mains [e] = [] := by simp [mains, he]
      rw [hme, List.append_nil] at hm
      exact hm
    · have hme : mains [e] = [e] := by simp [mains, he]
      rw [hme] at hm
      rcases hm with hm | hm | hm | ⟨m, hm⟩
      · exact absurd hm (by simp)
      · have h1 : mains r = [] := by
          have h2 := congrArg List.dropLast hm
          simpa using h2
        exact Or.inl h1
      · have h1 : mains r = [Turn.resolveOp (finalStep k)] := by
          have h2 := congrArg List.dropLast hm
          simpa using h2
        exact Or.inr (Or.inl h1)
      · have h1 : mains r = [] := by
          have h2 := congrArg List.dropLast hm
          simpa using h2
        exact Or.inl h1

/-- Characterization of a valid run: while no non-timer turn has occurred
the operation is still loading and the steps are the template with the fired
timers applied; as soon as a non-timer turn occurred the loading state is
back to idle. -/
theorem runTurns_spec (k : ProgressKind) (s0 : AppState) (rest : List Turn)
    (hv : ValidRest k rest) :
    (mains rest = [] →
      (runTurns s0 (Turn.startOp k :: rest)).loadingState = opLoading k ∧
      (runTurns s0 (Turn.startOp k :: rest)).progressSteps =
        applyIds (rest.filterMap timerTag) (createProgressSteps k)) ∧
    (mains rest ≠ [] →
      (runTurns s0 (Turn.startOp k :: rest)).loadingState = LoadingState.idle) := by
  revert hv
  induction rest using List.reverseRecOn with
  | nil =>
    intro _
    exact ⟨fun _ => ⟨rfl, rfl⟩, fun h => absurd rfl h⟩
  | append_singleton r e ih =>
    intro hv
    have hvr := validRest_drop k r e hv
    have ihr := ih hvr
    have hrun : runTurns s0 (Turn.startOp k :: (r ++ [e])) =
        applyTurn (runTurns s0 (Turn.startOp k :: r)) e := by
      rw [show Turn.startOp k :: (r ++ [e]) = (Turn.startOp k :: r) ++ [e] by simp,
        runTurns_append]
      rfl
    rcases e with k' | stepId | fid | m | _
    · exfalso
      have hme : mains (r ++ [Turn.startOp k']) = mains r ++ [Turn.startOp k'] := by
        rw [mains_append]; rfl
      rcases hv.2 with hm | hm | hm | ⟨m, hm⟩ <;> rw [hme] at hm <;>
        first
        | simp at hm
        | · have h2 := congrArg List.getLast? hm
            simp [List.getLast?_concat] at h2
    · have hme : mains (r ++ [Turn.timerFire stepId]) = mains r := by
        rw [mains_append]
        simp [mains, isTimerT]
      have hfm : (r ++ [Turn.timerFire stepId]).filterMap timerTag =
          r.filterMap timerTag ++ [stepId] := by
        rw [List.filterMap_append]; rfl
      constructor
      · intro h0
        have hr0 : mains r = [] := by rw [← hme]; exact h0
        obtain ⟨hl, hs⟩ := ihr.1 hr0
        rw [hrun]
        refine ⟨by simpa [applyTurn] using hl, ?_⟩
        have happ : applyIds (r.filterMap timerTag ++ [stepId]) (createProgressSteps k) =
            updateProgressStep stepId true
              (applyIds (r.filterMap timerTag) (createProgressSteps k)) := by
          simp [applyIds, List.foldl_append]
        rw [hfm, happ, ← hs]
        rfl
      · intro h0
        have hr0 : mains r ≠ [] := by rw [← hme]; exact h0
        have hidle := ihr.2 hr0
        rw [hrun]
        simpa [applyTurn] using hidle
    · constructor
      · intro h0
        exfalso
        rw [mains_append] at h0
        have hme : mains [Turn.resolveOp fid] = [Turn.resolveOp fid] := by
          simp [mains, isTimerT]
        rw [hme] at h0
        simp at h0
      · intro _
        rw [hrun]
        rfl
    · constructor
      · intro h0
        exfalso
        rw [mains_append] at h0
        have hme : mains [Turn.rejectOp m] = [Turn.rejectOp m] := by
          simp [mains, isTimerT]
        rw [hme] at h0
        simp at h0
      · intro _
        rw [hrun]
        rfl
    · have hme : mains (r ++ [Turn.hideFire]) = mains r ++ [Turn.hideFire] := by
        rw [mains_append]; rfl
      constructor
      · intro h0
        exfalso
        rw [hme] at h0
        simp at h0
      · intro _
        rcases hv.2 with hm | hm | hm | ⟨m, hm⟩ <;> rw [hme] at hm
        · simp at hm
        · have h2 := congrArg List.getLast? hm
          simp [List.getLast?_concat] at h2
        · have h1 : mains r = [Turn.resolveOp (finalStep k)] := by
            have h2 := congrArg List.dropLast hm
            simpa using h2
          have hidle := ihr.2 (by rw [h1]; simp)
          rw [hrun]
          simpa [applyTurn] using hidle
        · have h2 := congrArg List.getLast? hm
          simp [List.getLast?_concat] at h2

/-- `get?` through `mapIdx`. -/
theorem get?_mapIdx {α β : Type} (l : List α) (f : Nat → α → β) (i : Nat) :
    (l.mapIdx f).get? i = (l.get? i).map (f i) := by
  by_cases h : i < l.length
  · rw [List.get?_eq_get h, List.get?_eq_get (by rw [List.length_mapIdx]; exact h),
      List.get_mapIdx]
    rfl
  · have h1 : l.length ≤ i := Nat.le_of_not_lt h
    rw [List.get?_eq_none.mpr h1, List.get?_eq_none.mpr (by rw [List.length_mapIdx]; exact h1)]
    rfl

/-- `updateProgressStep` with `completed = true` never clears a completed
flag. -/
theorem updateProgressStep_mono (stepId : String) (steps : List Step) (i : Nat)
    (hc : (steps.get? i).map Step.completed = some true) :
    ((updateProgressStep stepId true steps).get? i).map Step.completed = some true := by
  unfold updateProgressStep
  cases hf : steps.findIdx? (fun s => s.id == stepId) with
  | none => exact hc
  | some j =>
    obtain ⟨st, hst⟩ : ∃ st, steps.get? i = some st := by
      cases hg : steps.get? i with
      | none => rw [hg] at hc; simp at hc
      | some st => exact ⟨st, rfl⟩
    have hcomp : st.completed = true := by rw [hst] at hc; simpa using hc
    rw [get?_mapIdx, hst]
    by_cases hij : i = j
    · simp [hij]
    · by_cases hij2 : i = j + 1
      · simp [hij, hij2, hcomp]
      · simp [hij, hij2, hcomp]

/-- Running any sequence of non-`startOp` turns preserves completed flags. -/
theorem runTurns_completed_mono (st : AppState) (ts : List Turn)
    (hns : ∀ e ∈ ts, ∀ k', e ≠ Turn.startOp k') (i : Nat)
    (hc : (st.progressSteps.get? i).map Step.completed = some true) :
    ((runTurns st ts).progressSteps.get? i).map Step.completed = some true := by
  induction ts generalizing st with
  | nil => exact hc
  | cons e ts ih =>
    simp only [runTurns, List.foldl_cons]
    have hstep : ((applyTurn st e).progressSteps.get? i).map Step.completed = some true := by
      rcases e with k' | stepId | fid | m | _
      · exact absurd rfl (hns _ (List.mem_cons_self _ _) k')
      · simpa [applyTurn] using updateProgressStep_mono stepId st.progressSteps i hc
      · simpa [applyTurn] using updateProgressStep_mono fid st.progressSteps i hc
      · simpa [applyTurn] using hc
      · simpa [applyTurn] using hc
    exact ih (applyTurn st e) (fun x hx => hns x (List.mem_cons_of_mem _ hx)) hstep

/-- C4, counterexample.  The cosmetic timers are never cleared, so a timer
scheduled by an earlier analyze operation can fire into a later analyze
operation's fresh step template, producing two active steps while the later
operation is in progress.  Concrete schedule: the first analyze starts at
t = 0 ms and schedules its step timers for t = 500/1500/2500 ms; its request
resolves at about t = 600 ms (`resolveOp`, restoring idle) and its deferred
hide block runs at t = 1100 ms; the user starts a second analyze at
t = 1200 ms (the Analyze button is enabled again because the state is idle);
at t = 1500 ms the first operation's `analysis` timer fires into the second
operation's template, which still has `preprocessing` active, activating
`ranking` as well — two active steps during an in-progress operation. -/
theorem progress_steps_counterexample :
    (runTurns initialAppState
      [Turn.startOp ProgressKind.analyze, Turn.timerFire "preprocessing",
       Turn.resolveOp "finalizing", Turn.hideFire,
       Turn.startOp ProgressKind.analyze, Turn.timerFire "analysis"]).loadingState =
      LoadingState.analyzing ∧
    countActive (runTurns initialAppState
      [Turn.startOp ProgressKind.analyze, Turn.timerFire "preprocessing",
       Turn.resolveOp "finalizing", Turn.hideFire,
       Turn.startOp ProgressKind.analyze, Turn.timerFire "analysis"]).progressSteps = 2 := by
  constructor
  · rfl
  · rfl

/-- C4, amended: during an in-progress analyzing or generating-worksheet
operation whose start is not preceded by still-pending progress timers of an
earlier operation (`ValidRest` lists exactly the turns the operation itself
schedules), at every instant exactly one step is active; and completed steps
never regress, without any staleness proviso: every turn of the trace
preserves completed flags. -/
theorem progress_steps_invariant (k : ProgressKind) (s0 : AppState) (rest : List Turn)
    (hk : k = ProgressKind.analyze ∨ k = ProgressKind.worksheet)
    (hv : ValidRest k rest) :
    ((runTurns s0 (Turn.startOp k :: rest)).loadingState = opLoading k →
      countActive (runTurns s0 (Turn.startOp k :: rest)).progressSteps = 1) ∧
    (∀ r1 r2, rest = r1 ++ r2 → ∀ i,
      ((runTurns s0 (Turn.startOp k :: r1)).progressSteps.get? i).map Step.completed =
        some true →
      ((runTurns s0 (Turn.startOp k :: rest)).progressSteps.get? i).map Step.completed =
        some true) := by
  constructor
  · intro hload
    by_cases hm : mains rest = []
    · obtain ⟨hl, hs⟩ := (runTurns_spec k s0 rest hv).1 hm
      rw [hs]
      obtain ⟨t, ht⟩ := hv.1
      have hfm : rest.filterMap timerTag =
          (timerIds k).take (rest.filterMap timerTag).length := by
        rw [← ht, List.take_left]
      have hlen : (rest.filterMap timerTag).length ≤ (timerIds k).length := by
        rw [← ht]
        simp
      rcases hk with hk | hk <;> subst hk <;>
        · simp only [timerIds, List.length_cons, List.length_nil] at hlen
          have hcases : (rest.filterMap timerTag).length = 0 ∨
              (rest.filterMap timerTag).length = 1 ∨
              (rest.filterMap timerTag).length = 2 ∨
              (rest.filterMap timerTag).length = 3 := by omega
          rw [hfm]
          rcases hcases with hn | hn | hn | hn <;> rw [hn] <;> rfl
    · have hidle := (runTurns_spec k s0 rest hv).2 hm
      rw [hidle] at hload
      rcases hk with hk | hk <;> subst hk <;> simp [opLoading] at hload
  · intro r1 r2 hsplit i hc
    have hnostart : ∀ e ∈ r2, ∀ k', e ≠ Turn.startOp k' := by
      intro e he k' hcon
      subst hcon
      have hmem : Turn.startOp k' ∈ mains rest := by
        rw [hsplit]
        exact List.mem_filter.mpr
          ⟨List.mem_append.mpr (Or.inr he), by simp [isTimerT]⟩
      rcases hv.2 with hm | hm | hm | ⟨m, hm⟩ <;> rw [hm] at hmem <;> simp at hmem
    subst hsplit
    rw [show Turn.startOp k :: (r1 ++ r2) = (Turn.startOp k :: r1) ++ r2 by simp,
      runTurns_append]
    exact runTurns_completed_mono _ r2 hnostart i hc

/-- C4, witness for the amended theorem: a single analyze operation, one
timer fired, still in progress. -/
theorem progress_steps_invariant_witness :
    countActive (runTurns initialAppState
      (Turn.startOp ProgressKind.analyze :: [Turn.timerFire "preprocessing"])).progressSteps
      = 1 ∧
    ((runTurns initialAppState
        (Turn.startOp ProgressKind.analyze :: [])).progressSteps.get? 0).map Step.completed
        ≠ some true :=
  ⟨(progress_steps_invariant ProgressKind.analyze initialAppState
      [Turn.timerFire "preprocessing"] (Or.inl rfl)
      ⟨⟨["analysis", "ranking"], rfl⟩, Or.inl rfl⟩).1 (by rfl),
   by simp [runTurns, applyTurn, createProgressSteps, initialAppState, opLoading]⟩

/-! ## C2: cancellation-by-staleness of the definition fetch -/

/-- One continuation at a time. -/
theorem runDefEvs_cons (tA tB : String) (s : DefState) (e : DefEv) (evs : List DefEv) :
    runDefEvs tA tB s (e :: evs) = runDefEvs tA tB (applyDefEv tA tB s e) evs := rfl

/-- Splitting a continuation trace. -/
theorem runDefEvs_append (tA tB : String) (s : DefState) (xs ys : List DefEv) :
    runDefEvs tA tB s (xs ++ ys) = runDefEvs tA tB (runDefEvs tA tB s xs) ys :=
  List.foldl_append ..

/-- No continuation ever sets run B's cancellation flag. -/
theorem applyDefEv_cancelledB (tA tB : String) (s : DefState) (e : DefEv) :
    (applyDefEv tA tB s e).cancelledB = s.cancelledB := by
  rcases e <;> simp only [applyDefEv] <;> split <;> rfl

/-- Run B's cancellation flag survives any trace. -/
theorem runDefEvs_cancelledB (tA tB : String) (evs : List DefEv) (s : DefState) :
    (runDefEvs tA tB s evs).cancelledB = s.cancelledB := by
  induction evs generalizing s with
  | nil => rfl
  | cons e rest ih => rw [runDefEvs_cons, ih, applyDefEv_cancelledB]

/-- Bisimulation after B has started: with run A cancelled in both, a trace
without further `bStart` events is observably equivalent to its B-events
subtrace. -/
theorem runDefEvs_stale_sim (tA tB : String) (post : List DefEv)
    (hpost : ∀ e ∈ post, e ≠ DefEv.bStart) :
    ∀ s s', s.cancelledA = true → s'.cancelledA = true →
      s.cancelledB = s'.cancelledB → s.accB = s'.accB →
      s.definitionContent = s'.definitionContent → s.asciiArt = s'.asciiArt →
      s.generationTime = s'.generationTime → s.loadingState = s'.loadingState →
      observe (runDefEvs tA tB s post) = observe (runDefEvs tA tB s' (post.filter isBEv)) := by
  induction post with
  | nil =>
    intro s s' _ _ _ _ h1 h2 h3 h4
    simp [runDefEvs, observe, h1, h2, h3, h4]
  | cons e rest ih =>
    intro s s' hA hA' hBf hBa h1 h2 h3 h4
    have hrest : ∀ x ∈ rest, x ≠ DefEv.bStart :=
      fun x hx => hpost x (List.mem_cons_of_mem _ hx)
    rcases e with c | art | _ | t | _ | c | art | _ | t
    · rw [runDefEvs_cons,
        show applyDefEv tA tB s (DefEv.aChunk c) = s by simp [applyDefEv, hA],
        show (DefEv.aChunk c :: rest).filter isBEv = rest.filter isBEv by simp [isBEv]]
      exact ih hrest s s' hA hA' hBf hBa h1 h2 h3 h4
    · rw [runDefEvs_cons,
        show applyDefEv tA tB s (DefEv.aArtOk art) = s by simp [applyDefEv, hA],
        show (DefEv.aArtOk art :: rest).filter isBEv = rest.filter isBEv by simp [isBEv]]
      exact ih hrest s s' hA hA' hBf hBa h1 h2 h3 h4
    · rw [runDefEvs_cons,
        show applyDefEv tA tB s DefEv.aArtFail = s by simp [applyDefEv, hA],
        show (DefEv.aArtFail :: rest).filter isBEv = rest.filter isBEv by simp [isBEv]]
      exact ih hrest s s' hA hA' hBf hBa h1 h2 h3 h4
    · rw [runDefEvs_cons,
        show applyDefEv tA tB s (DefEv.aFinish t) = s by simp [applyDefEv, hA],
        show (DefEv.aFinish t :: rest).filter isBEv = rest.filter isBEv by simp [isBEv]]
      exact ih hrest s s' hA hA' hBf hBa h1 h2 h3 h4
    · exact absurd rfl (hpost _ (List.mem_cons_self _ _))
    · rw [runDefEvs_cons,
        show (DefEv.bChunk c :: rest).filter isBEv = DefEv.bChunk c :: rest.filter isBEv by
          simp [isBEv],
        runDefEvs_cons]
      by_cases hB : s.cancelledB = true
      · have hB' : s'.cancelledB = true := by rw [← hBf]; exact hB
        rw [show applyDefEv tA tB s (DefEv.bChunk c) = s by simp [applyDefEv, hB],
          show applyDefEv tA tB s' (DefEv.bChunk c) = s' by simp [applyDefEv, hB']]
        exact ih hrest s s' hA hA' hBf hBa h1 h2 h3 h4
      · have hB' : ¬ s'.cancelledB = true := by rw [← hBf]; exact hB
        apply ih hrest <;>
          simp [applyDefEv, hB, hB', hA, hA', hBf, hBa, h1, h2, h3, h4]
    · rw [runDefEvs_cons,
        show (DefEv.bArtOk art :: rest).filter isBEv = DefEv.bArtOk art :: rest.filter isBEv by
          simp [isBEv],
        runDefEvs_cons]
      by_cases hB : s.cancelledB = true
      · have hB' : s'.cancelledB = true := by rw [← hBf]; exact hB
        rw [show applyDefEv tA tB s (DefEv.bArtOk art) = s by simp [applyDefEv, hB],
          show applyDefEv tA tB s' (DefEv.bArtOk art) = s' by simp [applyDefEv, hB']]
        exact ih hrest s s' hA hA' hBf hBa h1 h2 h3 h4
      · have hB' : ¬ s'.cancelledB = true := by rw [← hBf]; exact hB
        apply ih hrest <;>
          simp [applyDefEv, hB, hB', hA, hA', hBf, hBa, h1, h2, h3, h4]
    · rw [runDefEvs_cons,
        show (DefEv.bArtFail :: rest).filter isBEv = DefEv.bArtFail :: rest.filter isBEv by
          simp [isBEv],
        runDefEvs_cons]
      by_cases hB : s.cancelledB = true
      · have hB' : s'.cancelledB = true := by rw [← hBf]; exact hB
        rw [show applyDefEv tA tB s DefEv.bArtFail = s by simp [applyDefEv, hB],
          show applyDefEv tA tB s' DefEv.bArtFail = s' by simp [applyDefEv, hB']]
        exact ih hrest s s' hA hA' hBf hBa h1 h2 h3 h4
      · have hB' : ¬ s'.cancelledB = true := by rw [← hBf]; exact hB
        apply ih hrest <;>
          simp [applyDefEv, hB, hB', hA, hA', hBf, hBa, h1, h2, h3, h4]
    · rw [runDefEvs_cons,
        show (DefEv.bFinish t :: rest).filter isBEv = DefEv.bFinish t :: rest.filter isBEv by
          simp [isBEv],
        runDefEvs_cons]
      by_cases hB : s.cancelledB = true
      · have hB' : s'.cancelledB = true := by rw [← hBf]; exact hB
        rw [show applyDefEv tA tB s (DefEv.bFinish t) = s by simp [applyDefEv, hB],
          show applyDefEv tA tB s' (DefEv.bFinish t) = s' by simp [applyDefEv, hB']]
        exact ih hrest s s' hA hA' hBf hBa h1 h2 h3 h4
      · have hB' : ¬ s'.cancelledB = true := by rw [← hBf]; exact hB
        apply ih hrest <;>
          simp [applyDefEv, hB, hB', hA, hA', hBf, hBa, h1, h2, h3, h4]

/-- After B has started (A cancelled, B fresh), the displayed definition
content is exactly the concatenation of B's streamed chunks. -/
theorem runDefEvs_content (tA tB : String) (post : List DefEv)
    (hpost : ∀ e ∈ post, e ≠ DefEv.bStart) :
    ∀ s, s.cancelledA = true → s.cancelledB = false →
      s.definitionContent = s.accB →
      (runDefEvs tA tB s post).definitionContent =
        s.accB ++ joinChunks (post.filterMap bChunkStr) ∧
      (runDefEvs tA tB s post).accB =
        s.accB ++ joinChunks (post.filterMap bChunkStr) := by
  induction post with
  | nil =>
    intro s _ _ hcd
    simp [runDefEvs, joinChunks, hcd]
  | cons e rest ih =>
    intro s hA hB hcd
    have hrest : ∀ x ∈ rest, x ≠ DefEv.bStart :=
      fun x hx => hpost x (List.mem_cons_of_mem _ hx)
    rcases e with c | art | _ | t | _ | c | art | _ | t
    · rw [runDefEvs_cons, show applyDefEv tA tB s (DefEv.aChunk c) = s by simp [applyDefEv, hA]]
      simpa [bChunkStr] using ih hrest s hA hB hcd
    · rw [runDefEvs_cons, show applyDefEv tA tB s (DefEv.aArtOk art) = s by simp [applyDefEv, hA]]
      simpa [bChunkStr] using ih hrest s hA hB hcd
    · rw [runDefEvs_cons, show applyDefEv tA tB s DefEv.aArtFail = s by simp [applyDefEv, hA]]
      simpa [bChunkStr] using ih hrest s hA hB hcd
    · rw [runDefEvs_cons, show applyDefEv tA tB s (DefEv.aFinish t) = s by simp [applyDefEv, hA]]
      simpa [bChunkStr] using ih hrest s hA hB hcd
    · exact absurd rfl (hpost _ (List.mem_cons_self _ _))
    · rw [runDefEvs_cons]
      have hstep : applyDefEv tA tB s (DefEv.bChunk c) =
          { s with
            accB := s.accB ++ c
            definitionContent := s.accB ++ c } := by
        simp [applyDefEv, hB]
      rw [hstep]
      have hres := ih hrest
        { s with
          accB := s.accB ++ c
          definitionContent := s.accB ++ c } (by simpa using hA) (by simpa using hB) rfl
      simpa [bChunkStr, joinChunks, String.append_assoc] using hres
    · rw [runDefEvs_cons]
      have hstep : applyDefEv tA tB s (DefEv.bArtOk art) = { s with asciiArt := some art } := by
        simp [applyDefEv, hB]
      rw [hstep]
      simpa [bChunkStr] using ih hrest { s with asciiArt := some art }
        (by simpa using hA) (by simpa using hB) (by simpa using hcd)
    · rw [runDefEvs_cons]
      have hstep : applyDefEv tA tB s DefEv.bArtFail =
          { s with asciiArt := some (createFallbackArt tB) } := by
        simp [applyDefEv, hB]
      rw [hstep]
      simpa [bChunkStr] using ih hrest { s with asciiArt := some (createFallbackArt tB) }
        (by simpa using hA) (by simpa using hB) (by simpa using hcd)
    · rw [runDefEvs_cons]
      have hstep : applyDefEv tA tB s (DefEv.bFinish t) =
          { s with
            generationTime := some t
            loadingState := LoadingState.idle } := by
        simp [applyDefEv, hB]
      rw [hstep]
      simpa [bChunkStr] using ih hrest
        { s with
          generationTime := some t
          loadingState := LoadingState.idle }
        (by simpa using hA) (by simpa using hB) (by simpa using hcd)

/-- C2: if a second definition fetch (topic B) starts while topic A's fetch
is still emitting, no state update of A's run (chunk, art, fallback art,
timing) is applied after B's start: the run is observably identical to the
run containing only B's events, and the final displayed definition content
is exactly the concatenation of B's streamed chunks — never an interleaving
of A's and B's chunks. -/
theorem definition_fetch_staleness (tA tB : String) (pre post : List DefEv)
    (hpost : ∀ e ∈ post, e ≠ DefEv.bStart) :
    observe (runDefEvs tA tB defStart (pre ++ DefEv.bStart :: post)) =
      observe (runDefEvs tA tB defStart (DefEv.bStart :: post.filter isBEv)) ∧
    (runDefEvs tA tB defStart (pre ++ DefEv.bStart :: post)).definitionContent =
      joinChunks (post.filterMap bChunkStr) := by
  have hsplit : runDefEvs tA tB defStart (pre ++ DefEv.bStart :: post) =
      runDefEvs tA tB
        (applyDefEv tA tB (runDefEvs tA tB defStart pre) DefEv.bStart) post := by
    rw [show pre ++ DefEv.bStart :: post = (pre ++ [DefEv.bStart]) ++ post by simp,
      runDefEvs_append, runDefEvs_append]
    rfl
  have hcb : (applyDefEv tA tB (runDefEvs tA tB defStart pre) DefEv.bStart).cancelledB =
      false := by
    rw [applyDefEv_cancelledB, runDefEvs_cancelledB]
    rfl
  constructor
  · rw [hsplit, show (DefEv.bStart :: post.filter isBEv) =
      [DefEv.bStart] ++ post.filter isBEv from rfl, runDefEvs_append]
    exact runDefEvs_stale_sim tA tB post hpost _ _ rfl rfl (by rw [hcb]; rfl) rfl rfl rfl rfl rfl
  · rw [hsplit]
    exact (runDefEvs_content tA tB post hpost _ rfl hcb rfl).1

/-- C2, witness: A emits a chunk, B starts, then A's remaining continuations
interleave with B's; the displayed content is exactly B's chunks. -/
theorem definition_fetch_staleness_witness :
    observe (runDefEvs "alpha" "bravo" defStart
      ([DefEv.aChunk "Al"] ++ DefEv.bStart ::
        [DefEv.aChunk "pha", DefEv.bChunk "Bra", DefEv.aArtOk "X", DefEv.bChunk "vo",
         DefEv.aFinish 5, DefEv.bFinish 7])) =
      observe (runDefEvs "alpha" "bravo" defStart
        (DefEv.bStart ::
          [DefEv.aChunk "pha", DefEv.bChunk "Bra", DefEv.aArtOk "X", DefEv.bChunk "vo",
           DefEv.aFinish 5, DefEv.bFinish 7].filter isBEv)) ∧
    (runDefEvs "alpha" "bravo" defStart
      ([DefEv.aChunk "Al"] ++ DefEv.bStart ::
        [DefEv.aChunk "pha", DefEv.bChunk "Bra", DefEv.aArtOk "X", DefEv.bChunk "vo",
         DefEv.aFinish 5, DefEv.bFinish 7])).definitionContent =
      joinChunks ([DefEv.aChunk "pha", DefEv.bChunk "Bra", DefEv.aArtOk "X",
        DefEv.bChunk "vo", DefEv.aFinish 5, DefEv.bFinish 7].filterMap bChunkStr) :=
  definition_fetch_staleness "alpha" "bravo" [DefEv.aChunk "Al"]
    [DefEv.aChunk "pha", DefEv.bChunk "Bra", DefEv.aArtOk "X", DefEv.bChunk "vo",
     DefEv.aFinish 5, DefEv.bFinish 7] (by decide)

/-! C7 lemma layer 1: character classes survive case folding -/

theorem upper_bounds (c : Char) (h : c.isUpper = true) :
    65 ≤ c.toNat ∧ c.toNat ≤ 90 := by
  unfold Char.isUpper at h
  simp only [Bool.and_eq_true, decide_eq_true_eq] at h
  have h1 : (65 : UInt32).toNat ≤ c.val.toNat := h.1
  have h2 : c.val.toNat ≤ (90 : UInt32).toNat := h.2
  have h65 : (65 : UInt32).toNat = 65 := rfl
  have h90 : (90 : UInt32).toNat = 90 := rfl
  have hc : c.toNat = c.val.toNat := rfl
  omega

theorem toNat_ofNat_valid (n : Nat) (h : n.isValidChar) : (Char.ofNat n).toNat = n := by
  simp only [Char.ofNat, h, dif_pos]
  simp [Char.ofNatAux, Char.toNat, UInt32.toNat]

theorem isWordChar_jsLower (c : Char) : isWordChar (jsLower c) = isWordChar c := by
  unfold jsLower
  by_cases h : c.isUpper = true
  · rw [if_pos h]
    obtain ⟨hb1, hb2⟩ := upper_bounds c h
    have hvalid : (c.toNat + 32).isValidChar := by
      left
      omega
    have htn : (Char.ofNat (c.toNat + 32)).toNat = c.toNat + 32 := toNat_ofNat_valid _ hvalid
    have hlower : (Char.ofNat (c.toNat + 32)).isLower = true := by
      unfold Char.isLower
      simp only [Bool.and_eq_true, decide_eq_true_eq]
      have hch : (Char.ofNat (c.toNat + 32)).val.toNat = c.toNat + 32 := htn
      constructor
      · show (97 : UInt32).toNat ≤ (Char.ofNat (c.toNat + 32)).val.toNat
        have e97 : ((97 : UInt32)).toNat = 97 := rfl
        omega
      · show (Char.ofNat (c.toNat + 32)).val.toNat ≤ (122 : UInt32).toNat
        have e122 : ((122 : UInt32)).toNat = 122 := rfl
        omega
    simp [isWordChar, Char.isAlpha, hlower, h]
  · rw [if_neg h]

theorem jsLower_class_eq {a b : Char} (h : jsLower a = jsLower b) :
    isWordChar a = isWordChar b := by
  rw [← isWordChar_jsLower a, ← isWordChar_jsLower b, h]

theorem allWord_lstr (l : List Char) : (lstr l).all isWordChar = l.all isWordChar := by
  induction l with
  | nil => rfl
  | cons c cs ih =>
    simp only [lstr, List.map_cons, List.all_cons, isWordChar_jsLower] at ih ⊢
    rw [ih]

theorem lstr_all_eq {a b : List Char} (h : lstr a = lstr b) :
    a.all isWordChar = b.all isWordChar := by
  rw [← allWord_lstr a, ← allWord_lstr b, h]

theorem lstr_length (l : List Char) : (lstr l).length = l.length := List.length_map ..

theorem lstr_eq_length {a b : List Char} (h : lstr a = lstr b) : a.length = b.length := by
  rw [← lstr_length a, ← lstr_length b, h]

theorem lstr_head_class {a b : List Char} (h : lstr a = lstr b) :
    isWordO a.head? = isWordO b.head? := by
  cases a with
  | nil =>
    cases b with
    | nil => rfl
    | cons y ys => simp [lstr] at h
  | cons x xs =>
    cases b with
    | nil => simp [lstr] at h
    | cons y ys =>
      simp only [lstr, List.map_cons, List.cons.injEq] at h
      simp only [List.head?_cons, isWordO]
      exact jsLower_class_eq h.1

/-! C7 lemma layer 2: `tryWords` at a position -/

theorem splitScan_advance (ws : List (List Char)) (prev : Option Char) (c : Char)
    (rest acc : List Char)
    (h : (if bnd prev (some c) then tryWords ws (c :: rest) else none) = none) :
    splitScan ws prev (c :: rest) acc = splitScan ws (some c) rest (c :: acc) := by
  rw [splitScan]
  split
  · next n hm => rw [h] at hm; exact absurd hm (by simp)
  · rfl

theorem splitScan_match (ws : List (List Char)) (prev : Option Char) (c : Char)
    (rest acc : List Char) (n : Nat)
    (hb : bnd prev (some c) = true) (ht : tryWords ws (c :: rest) = some n) :
    splitScan ws prev (c :: rest) acc =
      acc.reverse :: (c :: rest).take n ::
        splitScan ws ((c :: rest).take n).getLast? ((c :: rest).drop n) [] := by
  rw [splitScan]
  split
  · next m hm =>
      rw [if_pos hb, ht] at hm
      injection hm with hm
      subst hm
      rfl
  · next hm =>
      rw [if_pos hb, ht] at hm
      exact absurd hm (by simp)

/-- Words of only word characters cannot match at a non-word-character
position. -/
theorem tryWords_nonword_head (ws : List (List Char)) (text : List Char)
    (hw : ∀ w ∈ ws, w ≠ [] ∧ w.all isWordChar = true)
    (hh : isWordO text.head? = false) : tryWords ws text = none := by
  induction ws with
  | nil => rfl
  | cons w ws ih =>
    have hwa : wordAt w text = false := by
      obtain ⟨hne, hall⟩ := hw w (List.mem_cons_self _ _)
      by_contra hcon
      rw [Bool.not_eq_false] at hcon
      unfold wordAt at hcon
      simp only [Bool.and_eq_true, decide_eq_true_eq] at hcon
      obtain ⟨⟨⟨_, hle⟩, hls⟩, _⟩ := hcon
      have hhead := lstr_head_class hls
      have hwlen : 1 ≤ w.length := List.length_pos.mpr hne
      have htne : text ≠ [] := by
        intro hcon2
        subst hcon2
        rw [List.length_nil] at hle
        exact hne (List.length_eq_zero.mp (Nat.le_zero.mp hle))
      obtain ⟨c, cs, rfl⟩ : ∃ c cs, text = c :: cs := by
        cases text with
        | nil => exact absurd rfl htne
        | cons c cs => exact ⟨c, cs, rfl⟩
      obtain ⟨x, xs, hwx⟩ : ∃ x xs, w = x :: xs := by
        cases w with
        | nil => exact absurd rfl hne
        | cons x xs => exact ⟨x, xs, rfl⟩
      subst hwx
      have htake : ((c :: cs).take (x :: xs).length).head? = some c := by
        simp [List.length_cons, List.take_cons]
      rw [htake] at hhead
      simp only [List.head?_cons, isWordO] at hhead hh
      have hx : isWordChar x = true := by
        have := hall
        simp only [List.all_cons, Bool.and_eq_true] at this
        exact this.1
      rw [hhead, hx] at hh
      exact absurd hh (by simp)
    have hstep : tryWords (w :: ws) text = tryWords ws text := by
      simp [tryWords, hwa]
    rw [hstep]
    exact ih (fun x hx => hw x (List.mem_cons_of_mem _ hx))

/-! C7 lemma layer 3: matching at the start of a maximal word-character run -/

/-- At the start of a maximal word-character run (non-word context on both
sides), a word-character word matches with its trailing boundary iff it
case-insensitively equals the whole run. -/
theorem wordAt_run (w r rest' : List Char)
    (hwne : w ≠ []) (hwall : w.all isWordChar = true)
    (hrne : r ≠ []) (hrall : r.all isWordChar = true)
    (hrest : isWordO rest'.head? = false) :
    wordAt w (r ++ rest') = true ↔ lstr r = lstr w := by
  constructor
  · intro h
    unfold wordAt at h
    simp only [Bool.and_eq_true, decide_eq_true_eq] at h
    obtain ⟨⟨⟨_, hle⟩, hls⟩, hbd⟩ := h
    rcases Nat.lt_trichotomy w.length r.length with hlt | heq | hgt
    · exfalso
      have htake : (r ++ rest').take w.length = r.take w.length := by
        rw [List.take_append_eq_append_take]
        have : w.length - r.length = 0 := by omega
        rw [this]
        simp
      have hdrop : (r ++ rest').drop w.length = r.drop w.length ++ rest' := by
        rw [List.drop_append_eq_append_drop]
        have : w.length - r.length = 0 := by omega
        rw [this]
        simp
      have htne : r.take w.length ≠ [] := by
        have : (r.take w.length).length = w.length := by
          rw [List.length_take]
          omega
        intro hcon
        rw [hcon] at this
        simp at this
        exact hwne (List.length_eq_zero.mp this.symm)
      have hlast : isWordO (r.take w.length).getLast? = true := by
        have hsome : (r.take w.length).getLast? = some ((r.take w.length).getLast htne) :=
          List.getLast?_eq_getLast _ htne
        rw [hsome]
        have hmem : (r.take w.length).getLast htne ∈ r :=
          List.mem_of_mem_take (List.getLast_mem htne)
        exact (List.all_eq_true.mp hrall) _ hmem
      have hdne : r.drop w.length ≠ [] := by
        intro hcon
        have := congrArg List.length hcon
        rw [List.length_drop] at this
        simp at this
        omega
      have hdhead : isWordO (r.drop w.length ++ rest').head? = true := by
        obtain ⟨d, ds, hds⟩ : ∃ d ds, r.drop w.length = d :: ds := by
          cases hcase : r.drop w.length with
          | nil => exact absurd hcase hdne
          | cons d ds => exact ⟨d, ds, rfl⟩
        rw [hds]
        simp only [List.cons_append, List.head?_cons, isWordO]
        have hmem : d ∈ r := by
          have : d ∈ r.drop w.length := by rw [hds]; exact List.mem_cons_self _ _
          exact List.mem_of_mem_drop this
        exact (List.all_eq_true.mp hrall) _ hmem
      rw [htake, hdrop] at hbd
      unfold bnd at hbd
      rw [hlast, hdhead] at hbd
      simp at hbd
    · have htake : (r ++ rest').take w.length = r := by
        rw [heq, List.take_left]
      rw [htake] at hls
      exact hls
    · exfalso
      have hkpos : 1 ≤ w.length - r.length := by omega
      have htake : (r ++ rest').take w.length = r ++ rest'.take (w.length - r.length) := by
        rw [List.take_append_eq_append_take]
        congr 1
        rw [List.take_of_length_le (by omega)]
      have hall2 : ((r ++ rest'.take (w.length - r.length)).all isWordChar) = true := by
        rw [← htake]
        rw [lstr_all_eq hls]
        exact hwall
      have hrestne : rest' ≠ [] := by
        intro hcon
        subst hcon
        simp at hle
        omega
      obtain ⟨d, ds, hds⟩ : ∃ d ds, rest' = d :: ds := by
        cases rest' with
        | nil => exact absurd rfl hrestne
        | cons d ds => exact ⟨d, ds, rfl⟩
      have hdword : isWordChar d = true := by
        have hdmem : d ∈ r ++ rest'.take (w.length - r.length) := by
          apply List.mem_append.mpr
          right
          rw [hds]
          obtain ⟨k, hk⟩ : ∃ k, w.length - r.length = k + 1 := ⟨w.length - r.length - 1, by omega⟩
          rw [hk, List.take_succ_cons]
          exact List.mem_cons_self _ _
        exact (List.all_eq_true.mp hall2) _ hdmem
      rw [hds] at hrest
      simp only [List.head?_cons, isWordO] at hrest
      rw [hdword] at hrest
      exact absurd hrest (by simp)
  · intro hls
    have hlen : r.length = w.length := lstr_eq_length hls
    unfold wordAt
    simp only [Bool.and_eq_true, decide_eq_true_eq]
    have htake : (r ++ rest').take w.length = r := by
      rw [← hlen, List.take_left]
    have hdrop : (r ++ rest').drop w.length = rest' := by
      rw [← hlen, List.drop_left]
    refine ⟨⟨⟨hwne, ?_⟩, ?_⟩, ?_⟩
    · rw [List.length_append]
      omega
    · rw [htake]
      exact hls
    · rw [htake, hdrop]
      have hlast : isWordO r.getLast? = true := by
        have hsome : r.getLast? = some (r.getLast hrne) := List.getLast?_eq_getLast _ hrne
        rw [hsome]
        exact (List.all_eq_true.mp hrall) _ (List.getLast_mem hrne)
      unfold bnd
      rw [hlast, hrest]
      rfl

/-- If the run is a (case-insensitive) member of the word list, the
alternation matches the whole run. -/
theorem tryWords_run_pos (ws : List (List Char)) (r rest' : List Char)
    (hw : ∀ w ∈ ws, w ≠ [] ∧ w.all isWordChar = true)
    (hrne : r ≠ []) (hrall : r.all isWordChar = true)
    (hrest : isWordO rest'.head? = false)
    (hmem : ciMem ws r = true) :
    tryWords ws (r ++ rest') = some r.length := by
  induction ws with
  | nil => simp [ciMem] at hmem
  | cons w ws ih =>
    obtain ⟨hwne, hwall⟩ := hw w (List.mem_cons_self _ _)
    by_cases hwa : wordAt w (r ++ rest') = true
    · have hls := (wordAt_run w r rest' hwne hwall hrne hrall hrest).mp hwa
      have hlen : w.length = r.length := (lstr_eq_length hls).symm
      simp [tryWords, hwa, hlen]
    · have hnls : lstr r ≠ lstr w := fun hcon =>
        hwa ((wordAt_run w r rest' hwne hwall hrne hrall hrest).mpr hcon)
      have hmem2 : ciMem ws r = true := by
        simp only [ciMem, List.any_cons, Bool.or_eq_true, beq_iff_eq] at hmem
        rcases hmem with hmem | hmem
        · exact absurd hmem.symm hnls
        · simp only [ciMem]
          exact hmem
      have hstep : tryWords (w :: ws) (r ++ rest') = tryWords ws (r ++ rest') := by
        simp [tryWords, hwa]
      rw [hstep]
      exact ih (fun x hx => hw x (List.mem_cons_of_mem _ hx)) hmem2

/-- If the run is not a member of the word list, nothing matches at the run
start. -/
theorem tryWords_run_neg (ws : List (List Char)) (r rest' : List Char)
    (hw : ∀ w ∈ ws, w ≠ [] ∧ w.all isWordChar = true)
    (hrne : r ≠ []) (hrall : r.all isWordChar = true)
    (hrest : isWordO rest'.head? = false)
    (hmem : ciMem ws r = false) :
    tryWords ws (r ++ rest') = none := by
  induction ws with
  | nil => rfl
  | cons w ws ih =>
    obtain ⟨hwne, hwall⟩ := hw w (List.mem_cons_self _ _)
    simp only [ciMem, List.any_cons, Bool.or_eq_true, beq_iff_eq] at hmem
    rw [Bool.or_eq_false_iff] at hmem
    have hwa : wordAt w (r ++ rest') = false := by
      by_contra hcon
      rw [Bool.not_eq_false] at hcon
      have hls := (wordAt_run w r rest' hwne hwall hrne hrall hrest).mp hcon
      have : (lstr w == lstr r) = true := by
        rw [beq_iff_eq]
        exact hls.symm
      rw [this] at hmem
      exact absurd hmem.1 (by simp)
    have hstep : tryWords (w :: ws) (r ++ rest') = tryWords ws (r ++ rest') := by
      simp [tryWords, hwa]
    rw [hstep]
    apply ih (fun x hx => hw x (List.mem_cons_of_mem _ hx))
    simp only [ciMem]
    exact hmem.2

/-! C7 lemma layer 4: scanning through runs -/

/-- The scanner walks through a run of non-word characters accumulating them
as plain text. -/
theorem splitScan_nonword_run (ws : List (List Char))
    (hw : ∀ w ∈ ws, w ≠ [] ∧ w.all isWordChar = true) :
    ∀ run : List Char, run ≠ [] → (∀ d ∈ run, isWordChar d = false) →
    ∀ (prev : Option Char) (rest' acc : List Char),
      splitScan ws prev (run ++ rest') acc =
        splitScan ws run.getLast? rest' (run.reverse ++ acc) := by
  intro run
  induction run with
  | nil => intro h; exact absurd rfl h
  | cons c run'' ih =>
    intro _ hall prev rest' acc
    have hcnw : isWordChar c = false := hall c (List.mem_cons_self _ _)
    have hnone : (if bnd prev (some c) then tryWords ws (c :: (run'' ++ rest')) else none)
        = none := by
      have ht : tryWords ws (c :: (run'' ++ rest')) = none := by
        apply tryWords_nonword_head ws _ hw
        simp only [List.head?_cons, isWordO]
        exact hcnw
      by_cases h : bnd prev (some c) = true
      · rw [if_pos h]; exact ht
      · rw [if_neg h]
    have hstep := splitScan_advance ws prev c (run'' ++ rest') acc hnone
    rw [show (c :: run'') ++ rest' = c :: (run'' ++ rest') from rfl, hstep]
    cases hrun : run'' with
    | nil =>
      subst hrun
      simp
    | cons c2 run3 =>
      subst hrun
      have hi := ih (by simp) (fun d hd => hall d (List.mem_cons_of_mem _ hd))
        (some c) rest' (c :: acc)
      rw [hi, List.getLast?_cons_cons]
      congr 1
      simp

/-- The scanner walks through the rest of a word run that did not match,
accumulating it as plain text (inside a run no position has a left word
boundary). -/
theorem splitScan_word_tail (ws : List (List Char)) :
    ∀ run : List Char, run ≠ [] → (∀ d ∈ run, isWordChar d = true) →
    ∀ (prevc : Char), isWordChar prevc = true →
    ∀ (rest' acc : List Char),
      splitScan ws (some prevc) (run ++ rest') acc =
        splitScan ws run.getLast? rest' (run.reverse ++ acc) := by
  intro run
  induction run with
  | nil => intro h; exact absurd rfl h
  | cons c run'' ih =>
    intro _ hall prevc hprev rest' acc
    have hcw : isWordChar c = true := hall c (List.mem_cons_self _ _)
    have hnone : (if bnd (some prevc) (some c) then tryWords ws (c :: (run'' ++ rest'))
        else none) = none := by
      have hb : bnd (some prevc) (some c) = false := by
        simp [bnd, isWordO, hprev, hcw]
      rw [hb]
      simp
    have hstep := splitScan_advance ws (some prevc) c (run'' ++ rest') acc hnone
    rw [show (c :: run'') ++ rest' = c :: (run'' ++ rest') from rfl, hstep]
    cases hrun : run'' with
    | nil =>
      subst hrun
      simp
    | cons c2 run3 =>
      subst hrun
      have hi := ih (by simp) (fun d hd => hall d (List.mem_cons_of_mem _ hd))
        c hcw rest' (c :: acc)
      rw [hi, List.getLast?_cons_cons]
      congr 1
      simp

/-! C7 lemma layer 5: head runs -/

theorem headRun_append_tailRun (t : List Char) : headRun t ++ tailRun t = t := by
  cases t with
  | nil => rfl
  | cons c rest =>
    simp only [headRun, tailRun, List.cons_append, List.cons.injEq, true_and]
    exact List.takeWhile_append_dropWhile ..

theorem headRun_class (c : Char) (rest : List Char) :
    ∀ d ∈ headRun (c :: rest), isWordChar d = isWordChar c := by
  intro d hd
  simp only [headRun, List.mem_cons] at hd
  rcases hd with hd | hd
  · rw [hd]
  · have := List.mem_takeWhile_imp hd
    rwa [beq_iff_eq] at this

theorem tailRun_head_class (c : Char) (rest : List Char) (d : Char)
    (h : (tailRun (c :: rest)).head? = some d) : isWordChar d ≠ isWordChar c := by
  simp only [tailRun] at h
  have hp : (fun d => isWordChar d == isWordChar c) d = false := by
    induction rest with
    | nil => simp [List.dropWhile] at h
    | cons x xs ih =>
      rw [List.dropWhile_cons] at h
      by_cases hx : (isWordChar x == isWordChar c) = true
      · rw [if_pos hx] at h
        exact ih h
      · rw [if_neg hx] at h
        simp only [List.head?_cons, Option.some.injEq] at h
        subst h
        show (isWordChar x == isWordChar c) = false
        cases hbe : (isWordChar x == isWordChar c) with
        | false => rfl
        | true => exact absurd hbe hx
  simp only [beq_eq_false_iff_ne, ne_eq] at hp
  exact hp

theorem headRun_getLast_class (c : Char) (rest : List Char) (x : Char)
    (h : (headRun (c :: rest)).getLast? = some x) : isWordChar x = isWordChar c := by
  apply headRun_class c rest
  have hne : headRun (c :: rest) ≠ [] := by simp [headRun]
  have := List.getLast?_eq_getLast _ hne
  rw [this] at h
  injection h with h
  rw [← h]
  exact List.getLast_mem hne

/-! C7 lemma layer 6: the scanner equals the run-based reference renderer -/

theorem refParts_cons_pos (ws : List (List Char)) (c : Char) (rest acc : List Char)
    (h : (isWordChar c && ciMem ws (headRun (c :: rest))) = true) :
    refParts ws (c :: rest) acc =
      acc.reverse :: headRun (c :: rest) :: refParts ws (tailRun (c :: rest)) [] := by
  rw [refParts, if_pos h]

theorem refParts_cons_neg (ws : List (List Char)) (c : Char) (rest acc : List Char)
    (h : (isWordChar c && ciMem ws (headRun (c :: rest))) = false) :
    refParts ws (c :: rest) acc =
      refParts ws (tailRun (c :: rest)) ((headRun (c :: rest)).reverse ++ acc) := by
  rw [refParts, if_neg (by simp [h])]

theorem splitScan_nil (ws : List (List Char)) (prev : Option Char) (acc : List Char) :
    splitScan ws prev [] acc = [acc.reverse] := by
  rw [splitScan]

theorem refParts_nil (ws : List (List Char)) (acc : List Char) :
    refParts ws [] acc = [acc.reverse] := by
  rw [refParts]

theorem splitScan_eq_refParts (ws : List (List Char))
    (hw : ∀ w ∈ ws, w ≠ [] ∧ w.all isWordChar = true) :
    ∀ (N : Nat) (text : List Char), text.length ≤ N →
    ∀ (prev : Option Char) (acc : List Char),
      (isWordO prev = true → isWordO text.head? = false) →
      splitScan ws prev text acc = refParts ws text acc := by
  intro N
  induction N with
  | zero =>
    intro text hlen prev acc _
    have htext : text = [] := List.length_eq_zero.mp (Nat.le_zero.mp hlen)
    subst htext
    rw [splitScan_nil, refParts_nil]
  | succ N ih =>
    intro text hlen prev acc hclean
    cases text with
    | nil => rw [splitScan_nil, refParts_nil]
    | cons c rest =>
      -- collect every fact about the head run, then forget its definition
      have hpos0 := refParts_cons_pos ws c rest acc
      have hneg0 := refParts_cons_neg ws c rest acc
      have hdecomp : headRun (c :: rest) ++ tailRun (c :: rest) = c :: rest :=
        headRun_append_tailRun _
      have hshape : ∃ rt, headRun (c :: rest) = c :: rt ∧
          rest = rt ++ tailRun (c :: rest) := by
        refine ⟨rest.takeWhile (fun d => isWordChar d == isWordChar c), rfl, ?_⟩
        simp only [tailRun]
        exact (List.takeWhile_append_dropWhile ..).symm
      have hclassr : ∀ d ∈ headRun (c :: rest), isWordChar d = isWordChar c :=
        headRun_class c rest
      have hth : ∀ d, (tailRun (c :: rest)).head? = some d →
          isWordChar d ≠ isWordChar c := tailRun_head_class c rest
      have hrestlen : (tailRun (c :: rest)).length ≤ N := by
        have h1 : (tailRun (c :: rest)).length ≤ rest.length := by
          simp only [tailRun]
          exact (List.dropWhile_sublist _).length_le
        simp only [List.length_cons] at hlen
        omega
      obtain ⟨rt, hrt, hrest2⟩ := hshape
      generalize hgen : headRun (c :: rest) = r at hpos0 hneg0 hdecomp hclassr hrt
      generalize hgen2 : tailRun (c :: rest) = t' at hpos0 hneg0 hdecomp hth hrestlen hrest2
      have hrne : r ≠ [] := by rw [hrt]; simp
      have hlastx : ∀ x, r.getLast? = some x → isWordChar x = isWordChar c := by
        intro x hx
        apply hclassr
        rw [List.getLast?_eq_getLast _ hrne] at hx
        injection hx with hx
        rw [← hx]
        exact List.getLast_mem hrne
      by_cases hcw : isWordChar c = true
      · -- word-character run
        have hrall : r.all isWordChar = true := by
          rw [List.all_eq_true]
          intro d hd
          rw [hclassr d hd, hcw]
        have hresthead : isWordO t'.head? = false := by
          cases hh : t'.head? with
          | none => rfl
          | some d =>
            have := hth d hh
            simp only [isWordO]
            rw [hcw] at this
            cases hd2 : isWordChar d with
            | false => rfl
            | true => exact absurd hd2 this
        have hcleanrec : isWordO r.getLast? = true → isWordO t'.head? = false :=
          fun _ => hresthead
        have hbnd : bnd prev (some c) = true := by
          have hprev : isWordO prev = false := by
            cases hp : isWordO prev with
            | false => rfl
            | true =>
              have := hclean hp
              simp only [List.head?_cons, isWordO] at this
              rw [hcw] at this
              exact absurd this (by simp)
          unfold bnd
          rw [hprev, show isWordO (some c) = true by simp [isWordO, hcw]]
          rfl
        by_cases hcm : ciMem ws r = true
        · -- matched run
          have htw : tryWords ws (c :: rest) = some r.length := by
            rw [← hdecomp]
            exact tryWords_run_pos ws _ _ hw hrne hrall hresthead hcm
          have hms := splitScan_match ws prev c rest acc r.length hbnd htw
          have htake : (c :: rest).take r.length = r := by
            rw [← hdecomp, List.take_left]
          have hdrop : (c :: rest).drop r.length = t' := by
            rw [← hdecomp, List.drop_left]
          rw [hms, htake, hdrop, hpos0 (by rw [hcw, hcm]; rfl)]
          congr 1
          congr 1
          exact ih _ hrestlen _ [] hcleanrec
        · -- unmatched word run: walk through it
          have hcm2 : ciMem ws r = false := by
            cases h2 : ciMem ws r with
            | false => rfl
            | true => exact absurd h2 hcm
          have htw : tryWords ws (c :: rest) = none := by
            rw [← hdecomp]
            exact tryWords_run_neg ws _ _ hw hrne hrall hresthead hcm2
          have hadv := splitScan_advance ws prev c rest acc (by rw [htw]; simp)
          rw [hadv, hneg0 (by rw [hcm2]; simp)]
          cases hrtc : rt with
          | nil =>
            have hr1 : r = [c] := by rw [hrt, hrtc]
            have hrest3 : rest = t' := by rw [hrest2, hrtc]; rfl
            rw [hrest3, hr1]
            simp only [List.reverse_cons, List.reverse_nil, List.nil_append,
              List.singleton_append]
            apply ih _ hrestlen _ _
            intro hp
            apply hcleanrec
            rw [hr1]
            simpa using hp
          | cons t1 ts =>
            have hr1 : r = c :: t1 :: ts := by rw [hrt, hrtc]
            have htall : ∀ d ∈ t1 :: ts, isWordChar d = true := by
              intro d hd
              have hmem : d ∈ r := by
                rw [hr1]
                exact List.mem_cons_of_mem _ hd
              rw [hclassr d hmem, hcw]
            have hwalk := splitScan_word_tail ws (t1 :: ts) (by simp) htall c hcw t' (c :: acc)
            have hrest4 : rest = (t1 :: ts) ++ t' := by rw [hrest2, hrtc]
            rw [hrest4, hwalk]
            have hglast : (t1 :: ts).getLast? = r.getLast? := by
              rw [hr1, List.getLast?_cons_cons]
            have hgacc : (t1 :: ts).reverse ++ (c :: acc) = r.reverse ++ acc := by
              rw [hr1]
              simp
            rw [hglast, hgacc]
            exact ih _ hrestlen _ _ hcleanrec
      · -- non-word-character run
        have hcw2 : isWordChar c = false := by
          cases h2 : isWordChar c with
          | false => rfl
          | true => exact absurd h2 hcw
        have hrall : ∀ d ∈ r, isWordChar d = false := by
          intro d hd
          rw [hclassr d hd, hcw2]
        have hwalk := splitScan_nonword_run ws hw r hrne hrall prev t' acc
        rw [hneg0 (by rw [hcw2]; simp),
          show (c : Char) :: rest = r ++ t' from hdecomp.symm, hwalk]
        apply ih _ hrestlen _ _
        intro hp
        exfalso
        cases hx : r.getLast? with
        | none =>
          rw [List.getLast?_eq_getLast _ hrne] at hx
          simp at hx
        | some x =>
          rw [hx] at hp
          simp only [isWordO] at hp
          rw [hlastx x hx, hcw2] at hp
          exact absurd hp (by simp)

/-! C7 lemma layer 7: boundary positions in a decomposed text -/

theorem head?_take_pos {α : Type} (l : List α) (n : Nat) (h : 1 ≤ n) :
    (l.take n).head? = l.head? := by
  cases l with
  | nil => simp
  | cons x xs =>
    obtain ⟨m, rfl⟩ : ∃ m, n = m + 1 := ⟨n - 1, by omega⟩
    simp [List.take_succ_cons]

/-- The word boundary test at the junction of two list segments. -/
theorem boundaryAt_append (done rem : List Char) :
    boundaryAt (done ++ rem) done.length = bnd done.getLast? rem.head? := by
  unfold boundaryAt
  congr 1
  · cases hd : done with
    | nil => rfl
    | cons d ds =>
      simp only [prevCharAt, List.length_cons, charAt]
      rw [List.getElem?_append_left (by simp)]
      rw [List.getLast?_eq_getElem?]
      simp
  · unfold charAt
    rw [List.getElem?_append_right (Nat.le_refl _), Nat.sub_self]
    exact (List.head?_eq_getElem? rem).symm

/-- A character position inside the middle segment. -/
theorem charAt_middle (done r rest'' : List Char) (j : Nat)
    (hge : done.length ≤ j) (hlt : j < done.length + r.length) :
    ∃ d, charAt (done ++ (r ++ rest'')) j = some d ∧ d ∈ r := by
  unfold charAt
  rw [List.getElem?_append_right hge, List.getElem?_append_left (by omega)]
  have hj : j - done.length < r.length := by omega
  exact ⟨r[j - done.length], List.getElem?_eq_getElem hj, List.getElem_mem ..⟩

/-- No word-boundary occurrence of a word-character word starts inside a run
of non-word characters. -/
theorem occ_in_nonword_run (done r rest'' w : List Char)
    (hrall : ∀ d ∈ r, isWordChar d = false)
    (hwne : w ≠ []) (hwall : w.all isWordChar = true)
    (i : Nat) (hge : done.length ≤ i) (hlt : i < done.length + r.length) :
    ¬ BoundaryOcc (done ++ (r ++ rest'')) w i := by
  intro hocc
  obtain ⟨hle, hls, _, _⟩ := hocc
  obtain ⟨d, hd, hdr⟩ := charAt_middle done r rest'' i hge hlt
  have hwpos : 1 ≤ w.length := List.length_pos.mpr hwne
  have hslice : (((done ++ (r ++ rest'')).drop i).take w.length).head? = some d := by
    rw [head?_take_pos _ _ hwpos, List.head?_drop]
    exact hd
  have hhead := lstr_head_class hls
  rw [hslice] at hhead
  obtain ⟨x, xs, hwx⟩ : ∃ x xs, w = x :: xs := by
    cases w with
    | nil => exact absurd rfl hwne
    | cons x xs => exact ⟨x, xs, rfl⟩
  subst hwx
  simp only [List.head?_cons, isWordO] at hhead
  have hxw : isWordChar x = true := by
    have := List.all_eq_true.mp hwall x (List.mem_cons_self _ _)
    exact this
  rw [hrall d hdr, hxw] at hhead
  exact absurd hhead (by simp)

/-- A word-boundary occurrence of a word-character word that starts inside a
maximal word-character run is exactly the whole run. -/
theorem occ_in_word_run (done r rest'' w : List Char)
    (hdl : isWordO done.getLast? = false)
    (hrne : r ≠ []) (hrall : r.all isWordChar = true)
    (hrh : isWordO rest''.head? = false)
    (hwne : w ≠ []) (hwall : w.all isWordChar = true)
    (i : Nat) (hge : done.length ≤ i) (hlt : i < done.length + r.length) :
    BoundaryOcc (done ++ (r ++ rest'')) w i ↔
      (i = done.length ∧ w.length = r.length ∧ lstr r = lstr w) := by
  have hwpos : 1 ≤ w.length := List.length_pos.mpr hwne
  have hrpos : 1 ≤ r.length := List.length_pos.mpr hrne
  have hfull : (done ++ (r ++ rest'')).length = done.length + (r.length + rest''.length) := by
    simp [List.length_append]
  constructor
  · intro hocc
    obtain ⟨hle, hls, hb1, hb2⟩ := hocc
    rw [hfull] at hle
    have hieq : i = done.length := by
      by_contra hne
      have higt : done.length < i := by omega
      have ha1 : done.length ≤ i - 1 := by omega
      have ha2 : i - 1 < done.length + r.length := by omega
      obtain ⟨d1, hd1, hd1r⟩ := charAt_middle done r rest'' (i - 1) ha1 ha2
      obtain ⟨d2, hd2, hd2r⟩ := charAt_middle done r rest'' i hge hlt
      unfold boundaryAt at hb1
      have hprev : prevCharAt (done ++ (r ++ rest'')) i = some d1 := by
        obtain ⟨j, rfl⟩ : ∃ j, i = j + 1 := ⟨i - 1, by omega⟩
        simp only [prevCharAt]
        simpa using hd1
      rw [hprev, hd2] at hb1
      simp only [bnd, isWordO] at hb1
      rw [List.all_eq_true.mp hrall _ hd1r, List.all_eq_true.mp hrall _ hd2r] at hb1
      exact absurd hb1 (by simp)
    subst hieq
    have hdrop : (done ++ (r ++ rest'')).drop done.length = r ++ rest'' :=
      List.drop_left ..
    rw [hdrop] at hls
    have hlen : w.length = r.length := by
      rcases Nat.lt_trichotomy w.length r.length with hlen | hlen | hlen
      · exfalso
        have ha1 : done.length ≤ done.length + w.length - 1 := by omega
        have ha2 : done.length + w.length - 1 < done.length + r.length := by omega
        have ha3 : done.length ≤ done.length + w.length := by omega
        have ha4 : done.length + w.length < done.length + r.length := by omega
        obtain ⟨d1, hd1, hd1r⟩ :=
          charAt_middle done r rest'' (done.length + w.length - 1) ha1 ha2
        obtain ⟨d2, hd2, hd2r⟩ :=
          charAt_middle done r rest'' (done.length + w.length) ha3 ha4
        unfold boundaryAt at hb2
        have hprev : prevCharAt (done ++ (r ++ rest'')) (done.length + w.length) =
            some d1 := by
          obtain ⟨j, hj⟩ : ∃ j, done.length + w.length = j + 1 :=
            ⟨done.length + w.length - 1, by omega⟩
          rw [hj]
          simp only [prevCharAt]
          rw [show j = done.length + w.length - 1 by omega]
          exact hd1
        rw [hprev, hd2] at hb2
        simp only [bnd, isWordO] at hb2
        rw [List.all_eq_true.mp hrall _ hd1r, List.all_eq_true.mp hrall _ hd2r] at hb2
        exact absurd hb2 (by simp)
      · exact hlen
      · exfalso
        have htake : (r ++ rest'').take w.length =
            r ++ rest''.take (w.length - r.length) := by
          rw [List.take_append_eq_append_take, List.take_of_length_le (by omega)]
        rw [htake] at hls
        have hall2 : (r ++ rest''.take (w.length - r.length)).all isWordChar = true := by
          rw [lstr_all_eq hls]
          exact hwall
        have hrestne : rest'' ≠ [] := by
          intro hcon
          subst hcon
          simp at hle
          omega
        obtain ⟨d, ds, hds⟩ : ∃ d ds, rest'' = d :: ds := by
          cases rest'' with
          | nil => exact absurd rfl hrestne
          | cons d ds => exact ⟨d, ds, rfl⟩
        have hdw : isWordChar d = true := by
          apply List.all_eq_true.mp hall2
          apply List.mem_append.mpr
          right
          rw [hds]
          obtain ⟨k, hk⟩ : ∃ k, w.length - r.length = k + 1 :=
            ⟨w.length - r.length - 1, by omega⟩
          rw [hk, List.take_succ_cons]
          exact List.mem_cons_self _ _
        rw [hds] at hrh
        simp only [List.head?_cons, isWordO] at hrh
        rw [hdw] at hrh
        exact absurd hrh (by simp)
    have htake : (r ++ rest'').take w.length = r := by
      rw [List.take_append_eq_append_take, hlen, Nat.sub_self, List.take_length,
        List.take_zero, List.append_nil]
    rw [htake] at hls
    exact ⟨rfl, hlen, hls⟩
  · intro h
    obtain ⟨hieq, hlen, hls⟩ := h
    subst hieq
    refine ⟨?_, ?_, ?_, ?_⟩
    · rw [hfull]
      omega
    · rw [List.drop_left, List.take_append_eq_append_take, hlen, Nat.sub_self,
        List.take_length, List.take_zero, List.append_nil]
      exact hls
    · rw [boundaryAt_append]
      obtain ⟨rh, rt, hrt⟩ : ∃ rh rt, r = rh :: rt := by
        cases r with
        | nil => exact absurd rfl hrne
        | cons rh rt => exact ⟨rh, rt, rfl⟩
      have hrhw : isWordChar rh = true := by
        apply List.all_eq_true.mp hrall
        rw [hrt]
        exact List.mem_cons_self _ _
      rw [hrt]
      simp only [List.cons_append, List.head?_cons]
      unfold bnd
      rw [hdl, show isWordO (some rh) = true by simp [isWordO, hrhw]]
      rfl
    · rw [hlen, show done ++ (r ++ rest'') = (done ++ r) ++ rest'' from
        (List.append_assoc ..).symm,
        show done.length + r.length = (done ++ r).length by simp, boundaryAt_append]
      have hglast : (done ++ r).getLast? = r.getLast? := List.getLast?_append_of_ne_nil _ hrne
      have hlastw : isWordO r.getLast? = true := by
        rw [List.getLast?_eq_getLast _ hrne]
        simp only [isWordO]
        exact List.all_eq_true.mp hrall _ (List.getLast_mem hrne)
      rw [hglast]
      unfold bnd
      rw [hlastw, hrh]
      rfl

/-! C7 lemma layer 8: spans of the reference renderer -/

theorem partSpans_start_le (ws : List (List Char)) :
    ∀ (parts : List (List Char)) (i : Nat) (sp : Nat × Nat × Bool),
      sp ∈ partSpans ws i parts → i ≤ sp.1 := by
  intro parts
  induction parts with
  | nil =>
    intro i sp h
    simp [partSpans] at h
  | cons p ps ih =>
    intro i sp h
    simp only [partSpans, List.mem_cons] at h
    rcases h with h | h
    · rw [h]
    · have := ih (i + p.length) sp h
      omega

theorem ciMem_props (ws : List (List Char))
    (hw : ∀ w ∈ ws, w ≠ [] ∧ w.all isWordChar = true) (p : List Char)
    (h : ciMem ws p = true) : p ≠ [] ∧ p.all isWordChar = true := by
  simp only [ciMem, List.any_eq_true, beq_iff_eq] at h
  obtain ⟨w, hwmem, hls⟩ := h
  obtain ⟨hwne, hwall⟩ := hw w hwmem
  constructor
  · intro hcon
    subst hcon
    simp only [lstr, List.map_nil] at hls
    exact hwne (List.map_eq_nil_iff.mp hls)
  · rw [← lstr_all_eq hls]
    exact hwall

theorem ciMem_nil (ws : List (List Char))
    (hw : ∀ w ∈ ws, w ≠ [] ∧ w.all isWordChar = true) : ciMem ws [] = false := by
  cases h : ciMem ws [] with
  | false => rfl
  | true => exact absurd rfl (ciMem_props ws hw [] h).1

theorem accInv_not_ciMem (ws : List (List Char))
    (hw : ∀ w ∈ ws, w ≠ [] ∧ w.all isWordChar = true) (acc : List Char)
    (hinv : acc.reverse.all isWordChar = true → ciMem ws acc.reverse = false) :
    ciMem ws acc.reverse = false := by
  cases h : ciMem ws acc.reverse with
  | false => rfl
  | true =>
    have hall := (ciMem_props ws hw _ h).2
    rw [hinv hall] at h
    exact absurd h (by simp)

/-- Members of the case-insensitive word list have the length of any list
they case-fold to. -/
theorem ciMem_length (ws : List (List Char)) (p : List Char) (h : ciMem ws p = true) :
    ∃ w, w ∈ ws ∧ w.length = p.length ∧ lstr w = lstr p := by
  simp only [ciMem, List.any_eq_true, beq_iff_eq] at h
  obtain ⟨w, hwmem, hls⟩ := h
  exact ⟨w, hwmem, lstr_eq_length hls, hls⟩

/-- Characterization of the marked spans of the reference renderer: starting
after a prefix `done₀` with pending plain text `acc.reverse`, the marked
spans are exactly the word-boundary occurrences of list words in the
untouched region. -/
theorem refParts_spans (ws : List (List Char))
    (hw : ∀ w ∈ ws, w ≠ [] ∧ w.all isWordChar = true) :
    ∀ (N : Nat) (remaining : List Char), remaining.length ≤ N →
    ∀ (done₀ acc : List Char),
      (acc.reverse.all isWordChar = true → ciMem ws acc.reverse = false) →
      (isWordO (done₀ ++ acc.reverse).getLast? = true → isWordO remaining.head? = false) →
      ∀ i n, ((i, n, true) ∈ partSpans ws done₀.length (refParts ws remaining acc) ↔
        (∃ w, w ∈ ws ∧ n = w.length ∧
          BoundaryOcc ((done₀ ++ acc.reverse) ++ remaining) w i ∧
          (done₀ ++ acc.reverse).length ≤ i)) := by
  intro N
  induction N with
  | zero =>
    intro remaining hlen done₀ acc hinv hclean i n
    have hrem : remaining = [] := List.length_eq_zero.mp (Nat.le_zero.mp hlen)
    subst hrem
    rw [refParts_nil]
    constructor
    · intro h
      simp only [partSpans, List.mem_cons, List.not_mem_nil, or_false] at h
      have := accInv_not_ciMem ws hw acc hinv
      rw [this] at h
      simp at h
    · intro h
      obtain ⟨w, hwmem, _, hocc, hbound⟩ := h
      obtain ⟨hle, _, _, _⟩ := hocc
      have hwpos : 1 ≤ w.length := List.length_pos.mpr (hw w hwmem).1
      rw [List.append_nil] at hle
      omega
  | succ N ih =>
    intro remaining hlen done₀ acc hinv hclean i n
    cases remaining with
    | nil =>
      rw [refParts_nil]
      constructor
      · intro h
        simp only [partSpans, List.mem_cons, List.not_mem_nil, or_false] at h
        have := accInv_not_ciMem ws hw acc hinv
        rw [this] at h
        simp at h
      · intro h
        obtain ⟨w, hwmem, _, hocc, hbound⟩ := h
        obtain ⟨hle, _, _, _⟩ := hocc
        have hwpos : 1 ≤ w.length := List.length_pos.mpr (hw w hwmem).1
        rw [List.append_nil] at hle
        omega
    | cons c rest =>
      have hpos0 := refParts_cons_pos ws c rest acc
      have hneg0 := refParts_cons_neg ws c rest acc
      have hdecomp : headRun (c :: rest) ++ tailRun (c :: rest) = c :: rest :=
        headRun_append_tailRun _
      have hshape : ∃ rt, headRun (c :: rest) = c :: rt ∧
          rest = rt ++ tailRun (c :: rest) := by
        refine ⟨rest.takeWhile (fun d => isWordChar d == isWordChar c), rfl, ?_⟩
        simp only [tailRun]
        exact (List.takeWhile_append_dropWhile ..).symm
      have hclassr : ∀ d ∈ headRun (c :: rest), isWordChar d = isWordChar c :=
        headRun_class c rest
      have hth : ∀ d, (tailRun (c :: rest)).head? = some d →
          isWordChar d ≠ isWordChar c := tailRun_head_class c rest
      have hrestlen : (tailRun (c :: rest)).length ≤ N := by
        have h1 : (tailRun (c :: rest)).length ≤ rest.length := by
          simp only [tailRun]
          exact (List.dropWhile_sublist _).length_le
        simp only [List.length_cons] at hlen
        omega
      obtain ⟨rt, hrt, hrest2⟩ := hshape
      generalize hgen : headRun (c :: rest) = r at hpos0 hneg0 hdecomp hclassr hrt
      generalize hgen2 : tailRun (c :: rest) = t' at hpos0 hneg0 hdecomp hth hrestlen hrest2
      have hrne : r ≠ [] := by rw [hrt]; simp
      have hrpos : 1 ≤ r.length := List.length_pos.mpr hrne
      have hlastx : ∀ x, r.getLast? = some x → isWordChar x = isWordChar c := by
        intro x hx
        apply hclassr
        rw [List.getLast?_eq_getLast _ hrne] at hx
        injection hx with hx
        rw [← hx]
        exact List.getLast_mem hrne
      have hlastr : isWordO r.getLast? = isWordChar c := by
        cases hx : r.getLast? with
        | none =>
          exfalso
          rw [List.getLast?_eq_getLast _ hrne] at hx
          simp at hx
        | some x =>
          simp only [isWordO]
          exact hlastx x hx
      -- the full text, in the associativity convenient for the run lemmas
      have hassoc : (done₀ ++ acc.reverse) ++ (c :: rest) =
          (done₀ ++ acc.reverse) ++ (r ++ t') := by
        rw [hdecomp]
      by_cases hcw : isWordChar c = true
      · -- word-character run
        have hrall : r.all isWordChar = true := by
          rw [List.all_eq_true]
          intro d hd
          rw [hclassr d hd, hcw]
        have hresthead : isWordO t'.head? = false := by
          cases hh : t'.head? with
          | none => rfl
          | some d =>
            have := hth d hh
            simp only [isWordO]
            rw [hcw] at this
            cases hd2 : isWordChar d with
            | false => rfl
            | true => exact absurd hd2 this
        have hdlast : isWordO (done₀ ++ acc.reverse).getLast? = false := by
          cases hp : isWordO (done₀ ++ acc.reverse).getLast? with
          | false => rfl
          | true =>
            have := hclean hp
            simp only [List.head?_cons, isWordO] at this
            rw [hcw] at this
            exact absurd this (by simp)
        have hacclast : acc ≠ [] → acc.reverse.all isWordChar = true → False := by
          intro hane hall
          have haccne : acc.reverse ≠ [] := by
            intro hcon
            exact hane (by simpa using congrArg List.reverse hcon)
          have hg : (done₀ ++ acc.reverse).getLast? = acc.reverse.getLast? :=
            List.getLast?_append_of_ne_nil _ haccne
          have hlw : isWordO acc.reverse.getLast? = true := by
            rw [List.getLast?_eq_getLast _ haccne]
            simp only [isWordO]
            exact List.all_eq_true.mp hall _ (List.getLast_mem haccne)
          rw [hg, hlw] at hdlast
          exact absurd hdlast (by simp)
        by_cases hcm : ciMem ws r = true
        · -- matched run: one marked span for the run, recurse after it
          rw [hpos0 (by rw [hcw, hcm]; rfl),
            show (c : Char) :: rest = r ++ t' from hdecomp.symm]
          have hcma := accInv_not_ciMem ws hw acc hinv
          have hclean2 : isWordO ((done₀ ++ acc.reverse ++ r) ++
              List.reverse []).getLast? = true → isWordO t'.head? = false :=
            fun _ => hresthead
          have hinv2 : (List.reverse []).all isWordChar = true →
              ciMem ws (List.reverse []) = false := by
            intro _
            simpa using ciMem_nil ws hw
          have ih2 := ih t' hrestlen (done₀ ++ acc.reverse ++ r) [] hinv2 hclean2 i n
          have hoff : done₀.length + acc.reverse.length + r.length =
              (done₀ ++ acc.reverse ++ r).length := by
            simp only [List.length_append]
          have hlists : (done₀ ++ acc.reverse ++ r) ++ List.reverse [] ++ t' =
              done₀ ++ acc.reverse ++ (r ++ t') := by
            simp only [List.reverse_nil, List.append_nil, List.append_assoc]
          have hL : (done₀ ++ acc.reverse).length = done₀.length + acc.reverse.length := by
            simp
          constructor
          · intro h
            simp only [partSpans, List.mem_cons] at h
            rcases h with h | h | h
            · exfalso
              rw [Prod.mk.injEq, Prod.mk.injEq] at h
              rw [hcma] at h
              simp at h
            · rw [Prod.mk.injEq, Prod.mk.injEq] at h
              obtain ⟨hi, hn, _⟩ := h
              obtain ⟨w, hwmem, hwl, hls⟩ := ciMem_length ws r hcm
              refine ⟨w, hwmem, by omega, ?_, by omega⟩
              exact (occ_in_word_run (done₀ ++ acc.reverse) r t' w hdlast hrne
                hrall hresthead (hw w hwmem).1 (hw w hwmem).2 i (by omega)
                (by omega)).mpr ⟨by omega, by omega, hls.symm⟩
            · rw [hoff] at h
              obtain ⟨w, hwmem, hn, hocc, hbound⟩ := ih2.mp h
              rw [hlists] at hocc
              refine ⟨w, hwmem, hn, hocc, ?_⟩
              have : ((done₀ ++ acc.reverse ++ r) ++ List.reverse []).length ≤ i := hbound
              simp only [List.reverse_nil, List.append_nil, List.length_append] at this
              simp only [List.length_append]
              omega
          · intro h
            obtain ⟨w, hwmem, hn, hocc, hbound⟩ := h
            obtain ⟨hwne, hwall⟩ := hw w hwmem
            simp only [partSpans, List.mem_cons]
            by_cases hi : i < (done₀ ++ acc.reverse).length + r.length
            · right
              left
              have h3 := (occ_in_word_run (done₀ ++ acc.reverse) r t' w hdlast hrne
                hrall hresthead hwne hwall i hbound hi).mp hocc
              obtain ⟨hie, hwl, _⟩ := h3
              rw [Prod.mk.injEq, Prod.mk.injEq, hcm]
              refine ⟨by omega, by omega, rfl⟩
            · right
              right
              rw [hoff]
              apply ih2.mpr
              refine ⟨w, hwmem, hn, ?_, ?_⟩
              · rw [hlists]
                exact hocc
              · simp only [List.reverse_nil, List.append_nil, List.length_append]
                simp only [List.length_append] at hi
                omega
        · -- unmatched word run merges into the accumulator
          have hcm2 : ciMem ws r = false := by
            cases h2 : ciMem ws r with
            | false => rfl
            | true => exact absurd h2 hcm
          rw [hneg0 (by rw [hcm2]; simp),
            show (c : Char) :: rest = r ++ t' from hdecomp.symm]
          have hrevrev : (r.reverse ++ acc).reverse = acc.reverse ++ r := by simp
          have hinv3 : (r.reverse ++ acc).reverse.all isWordChar = true →
              ciMem ws (r.reverse ++ acc).reverse = false := by
            rw [hrevrev]
            intro hall
            rw [List.all_append, Bool.and_eq_true] at hall
            by_cases hae : acc = []
            · subst hae
              simpa using hcm2
            · exact (hacclast hae hall.1).elim
          have hclean3 : isWordO (done₀ ++ (r.reverse ++ acc).reverse).getLast? = true →
              isWordO t'.head? = false := fun _ => hresthead
          have ih3 := ih t' hrestlen done₀ (r.reverse ++ acc) hinv3 hclean3 i n
          rw [ih3]
          have hlists : done₀ ++ (r.reverse ++ acc).reverse ++ t' =
              done₀ ++ acc.reverse ++ (r ++ t') := by
            rw [hrevrev]
            simp [List.append_assoc]
          have hlen3 : (done₀ ++ (r.reverse ++ acc).reverse).length =
              (done₀ ++ acc.reverse).length + r.length := by
            rw [hrevrev]
            simp only [List.length_append]
            omega
          constructor
          · intro h
            obtain ⟨w, hwmem, hn, hocc, hbound⟩ := h
            rw [hlists] at hocc
            rw [hlen3] at hbound
            exact ⟨w, hwmem, hn, hocc, by omega⟩
          · intro h
            obtain ⟨w, hwmem, hn, hocc, hbound⟩ := h
            obtain ⟨hwne, hwall⟩ := hw w hwmem
            refine ⟨w, hwmem, hn, ?_, ?_⟩
            · rw [hlists]
              exact hocc
            · rw [hlen3]
              by_cases hi : i < (done₀ ++ acc.reverse).length + r.length
              · exfalso
                have h3 := (occ_in_word_run (done₀ ++ acc.reverse) r t' w hdlast hrne
                  hrall hresthead hwne hwall i hbound hi).mp hocc
                obtain ⟨_, _, hls⟩ := h3
                have hcm3 : ciMem ws r = true := by
                  simp only [ciMem, List.any_eq_true, beq_iff_eq]
                  exact ⟨w, hwmem, hls.symm⟩
                rw [hcm2] at hcm3
                exact absurd hcm3 (by simp)
              · omega
      · -- non-word-character run merges into the accumulator
        have hcw2 : isWordChar c = false := by
          cases h2 : isWordChar c with
          | false => rfl
          | true => exact absurd h2 hcw
        have hrallf : ∀ d ∈ r, isWordChar d = false := by
          intro d hd
          rw [hclassr d hd, hcw2]
        rw [hneg0 (by rw [hcw2]; simp),
          show (c : Char) :: rest = r ++ t' from hdecomp.symm]
        have hrevrev : (r.reverse ++ acc).reverse = acc.reverse ++ r := by simp
        have hinv3 : (r.reverse ++ acc).reverse.all isWordChar = true →
            ciMem ws (r.reverse ++ acc).reverse = false := by
          rw [hrevrev]
          intro hall
          exfalso
          rw [List.all_append, Bool.and_eq_true] at hall
          have hcword : isWordChar c = true :=
            List.all_eq_true.mp hall.2 c (by rw [hrt]; exact List.mem_cons_self _ _)
          rw [hcw2] at hcword
          exact absurd hcword (by simp)
        have hclean3 : isWordO (done₀ ++ (r.reverse ++ acc).reverse).getLast? = true →
            isWordO t'.head? = false := by
          intro hp
          exfalso
          have hg : (done₀ ++ (r.reverse ++ acc).reverse).getLast? = r.getLast? := by
            rw [hrevrev, show done₀ ++ (acc.reverse ++ r) = (done₀ ++ acc.reverse) ++ r from
              (List.append_assoc ..).symm]
            exact List.getLast?_append_of_ne_nil _ hrne
          rw [hg, hlastr, hcw2] at hp
          exact absurd hp (by simp)
        have ih3 := ih t' hrestlen done₀ (r.reverse ++ acc) hinv3 hclean3 i n
        rw [ih3]
        have hlists : done₀ ++ (r.reverse ++ acc).reverse ++ t' =
            done₀ ++ acc.reverse ++ (r ++ t') := by
          rw [hrevrev]
          simp [List.append_assoc]
        have hlen3 : (done₀ ++ (r.reverse ++ acc).reverse).length =
            (done₀ ++ acc.reverse).length + r.length := by
          rw [hrevrev]
          simp only [List.length_append]
          omega
        constructor
        · intro h
          obtain ⟨w, hwmem, hn, hocc, hbound⟩ := h
          rw [hlists] at hocc
          rw [hlen3] at hbound
          exact ⟨w, hwmem, hn, hocc, by omega⟩
        · intro h
          obtain ⟨w, hwmem, hn, hocc, hbound⟩ := h
          obtain ⟨hwne, hwall⟩ := hw w hwmem
          refine ⟨w, hwmem, hn, ?_, ?_⟩
          · rw [hlists]
            exact hocc
          · rw [hlen3]
            by_cases hi : i < (done₀ ++ acc.reverse).length + r.length
            · exact (occ_in_nonword_run (done₀ ++ acc.reverse) r t' w hrallf hwne hwall
                i hbound hi hocc).elim
            · omega

/-! C7 lemma layer 9: the rendered parts concatenate back to the text, and
span offsets are strictly increasing past each part -/

theorem joinParts_refParts (ws : List (List Char)) :
    ∀ (N : Nat) (rem : List Char), rem.length ≤ N →
    ∀ (acc : List Char), joinParts (refParts ws rem acc) = acc.reverse ++ rem := by
  intro N
  induction N with
  | zero =>
    intro rem hlen acc
    have hrem : rem = [] := List.length_eq_zero.mp (Nat.le_zero.mp hlen)
    subst hrem
    rw [refParts_nil]
    simp [joinParts]
  | succ N ih =>
    intro rem hlen acc
    match rem with
    | [] =>
      rw [refParts_nil]
      simp [joinParts]
    | c :: rest =>
      have hdecomp := headRun_append_tailRun (c :: rest)
      have hrestlen : (tailRun (c :: rest)).length ≤ N := by
        have h1 : (rest.dropWhile (fun d => isWordChar d == isWordChar c)).length ≤
            rest.length := (List.dropWhile_sublist _).length_le
        simp only [tailRun]
        simp only [List.length_cons] at hlen
        omega
      by_cases hc : (isWordChar c && ciMem ws (headRun (c :: rest))) = true
      · rw [refParts_cons_pos ws c rest acc hc]
        simp only [joinParts]
        rw [ih (tailRun (c :: rest)) hrestlen []]
        simp only [List.reverse_nil, List.nil_append]
        rw [hdecomp]
      · have hc2 : (isWordChar c && ciMem ws (headRun (c :: rest))) = false := by
          cases h2 : (isWordChar c && ciMem ws (headRun (c :: rest))) with
          | false => rfl
          | true => exact absurd h2 hc
        rw [refParts_cons_neg ws c rest acc hc2]
        rw [ih (tailRun (c :: rest)) hrestlen ((headRun (c :: rest)).reverse ++ acc)]
        simp only [List.reverse_append, List.reverse_reverse]
        rw [List.append_assoc, hdecomp]

theorem partSpans_pairwise (ws : List (List Char)) :
    ∀ (parts : List (List Char)) (i : Nat),
      (partSpans ws i parts).Pairwise (fun a b => a.1 + a.2.1 ≤ b.1) := by
  intro parts
  induction parts with
  | nil => intro i; simp [partSpans]
  | cons p ps ih =>
    intro i
    simp only [partSpans]
    refine List.Pairwise.cons ?_ (ih (i + p.length))
    intro b hb
    exact partSpans_start_le ws ps (i + p.length) b hb

/-! C7 verdict -/

/-- C7: counterexample to the unrestricted highlighting claim. With highlight
words containing non-word characters (which the source regex-escapes and
accepts), `"b-c"` has a case-insensitive word-boundary occurrence at offset 2
of `"a-b-c"`, yet the rendering marks only the earlier overlapping match
`"a-b"`: the span `(2, 3)` is never marked actionable, so not every boundary
occurrence is rendered as an actionable element. -/
theorem analyzed_content_counterexample :
    BoundaryOcc ['a', '-', 'b', '-', 'c'] ['b', '-', 'c'] 2 ∧
    ¬ ((2, 3, true) ∈
      partSpans [['a', '-', 'b'], ['b', '-', 'c']] 0
        (analyzedParts [['a', '-', 'b'], ['b', '-', 'c']] ['a', '-', 'b', '-', 'c'])) := by
  refine ⟨by unfold BoundaryOcc; decide, ?_⟩
  have s3 : splitScan [['a', '-', 'b'], ['b', '-', 'c']] (some 'c') [] ['c', '-'] =
      [['-', 'c']] := by
    rw [splitScan_nil]
    rfl
  have s2 : splitScan [['a', '-', 'b'], ['b', '-', 'c']] (some '-') ['c'] ['-'] =
      [['-', 'c']] := by
    rw [splitScan_advance _ (some '-') 'c' [] ['-'] (by decide)]
    exact s3
  have s1 : splitScan [['a', '-', 'b'], ['b', '-', 'c']] (some 'b') ['-', 'c'] [] =
      [['-', 'c']] := by
    rw [splitScan_advance _ (some 'b') '-' ['c'] [] (by decide)]
    exact s2
  have s0 : splitScan [['a', '-', 'b'], ['b', '-', 'c']] none ['a', '-', 'b', '-', 'c'] [] =
      [[], ['a', '-', 'b'], ['-', 'c']] := by
    rw [splitScan_match _ none 'a' ['-', 'b', '-', 'c'] [] 3 (by decide) (by decide)]
    have e1 : (('a' : Char) :: ['-', 'b', '-', 'c']).take 3 = ['a', '-', 'b'] := rfl
    have e2 : (('a' : Char) :: ['-', 'b', '-', 'c']).drop 3 = ['-', 'c'] := rfl
    rw [e1, e2]
    have e3 : (['a', '-', 'b'] : List Char).getLast? = some 'b' := rfl
    rw [e3, s1]
    rfl
  intro hmem
  rw [analyzedParts, if_neg (by decide), s0] at hmem
  exact absurd hmem (by decide)

/-- C7 (amended): when every highlight word is non-empty and consists only of
word characters, the rendering produced by `AnalyzedContent` is faithful and
complete: the emitted parts concatenate back to the body text; a span
`(i, n)` is marked actionable iff some highlight word of length `n` has a
case-insensitive word-boundary occurrence at offset `i` (so substrings of
larger words are never marked); and every part starts past the end of all
earlier parts, so each occurrence is marked exactly once. -/
theorem analyzed_content_word_boundary_marks (ws : List (List Char)) (text : List Char)
    (hw : ∀ w ∈ ws, w ≠ [] ∧ w.all isWordChar = true) :
    (∀ i n, ((i, n, true) ∈ partSpans ws 0 (analyzedParts ws text)) ↔
       (∃ w, w ∈ ws ∧ n = w.length ∧ BoundaryOcc text w i)) ∧
    joinParts (analyzedParts ws text) = text ∧
    (partSpans ws 0 (analyzedParts ws text)).Pairwise (fun a b => a.1 + a.2.1 ≤ b.1) := by
  by_cases hws : ws.isEmpty = true
  · have hwsnil : ws = [] := List.isEmpty_iff.mp hws
    subst hwsnil
    refine ⟨?_, ?_, ?_⟩
    · intro i n
      simp only [analyzedParts, List.isEmpty_nil, if_true]
      constructor
      · intro h
        simp only [partSpans, ciMem, List.any_nil, List.mem_cons, List.not_mem_nil,
          or_false, Prod.mk.injEq] at h
        exact absurd h.2.2 (by simp)
      · rintro ⟨w, hwmem, -⟩
        exact absurd hwmem (List.not_mem_nil w)
    · simp [analyzedParts, joinParts]
    · simp only [analyzedParts, List.isEmpty_nil, if_true]
      exact partSpans_pairwise [] [text] 0
  · have hne : analyzedParts ws text = splitScan ws none text [] := by
      rw [analyzedParts, if_neg hws]
    have hsr : splitScan ws none text [] = refParts ws text [] :=
      splitScan_eq_refParts ws hw text.length text le_rfl none []
        (by intro h; simp [isWordO] at h)
    rw [hne, hsr]
    refine ⟨?_, ?_, ?_⟩
    · intro i n
      have hmain := refParts_spans ws hw text.length text le_rfl [] []
        (fun _ => ciMem_nil ws hw)
        (by intro h; simp [isWordO] at h)
        i n
      simp only [List.reverse_nil, List.append_nil, List.nil_append, List.length_nil,
        Nat.zero_le, and_true] at hmain
      exact hmain
    · have := joinParts_refParts ws text.length text le_rfl []
      simpa using this
    · exact partSpans_pairwise ws (refParts ws text []) 0

/-- Witness for C7 at a concrete input: with highlight word `"ab"` and body
text `"x AB"`, the case-insensitive occurrence at offset 2 is marked. -/
theorem analyzed_content_word_boundary_marks_witness :
    (∀ w ∈ ([['a', 'b']] : List (List Char)), w ≠ [] ∧ w.all isWordChar = true) ∧
    (2, 2, true) ∈
      partSpans [['a', 'b']] 0 (analyzedParts [['a', 'b']] ['x', ' ', 'A', 'B']) :=
  ⟨by decide,
    ((analyzed_content_word_boundary_marks [['a', 'b']] ['x', ' ', 'A', 'B']
        (by decide)).1 2 2).mpr
      ⟨['a', 'b'], by decide, rfl, by unfold BoundaryOcc; decide⟩⟩

end VocaMonster
